import Mathlib

/-!
# rapidtemplate: the watch-and-rebuild pipeline

A shallow embedding of `rapidtemplate.go`.

Go strings are modelled as lists of characters (`Str`), so every index and
length below counts characters.  The functions of Go's `strings` and
`path/filepath` packages that the program calls are embedded first, then the
program's own functions, under the names they have in the source.
-/

namespace RapidTemplate

/-- A Go string. -/
abbrev Str := List Char

/-! ## Go's `strings` package -/

/-- `strings.Index(s, substr)`: the position of the first occurrence of `substr`
in `s`, `none` where Go returns `-1`. -/
def Index : Str → Str → Option Nat
  | [], substr => if substr.isPrefixOf [] then some 0 else none
  | c :: cs, substr =>
    if substr.isPrefixOf (c :: cs) then some 0 else (Index cs substr).map (· + 1)

/-- `strings.Contains(s, substr)`, which is `Index(s, substr) >= 0`. -/
def Contains (s substr : Str) : Bool := (Index s substr).isSome

/-- The loop of `strings.Count` for a non-empty `substr`: find the next
occurrence, count it, continue behind it.  Every round consumes at least one
character, so `fuel = len(s)` rounds are never used up. -/
def countLoop (substr : Str) : Nat → Str → Nat
  | 0, _ => 0
  | fuel + 1, s =>
    match Index s substr with
    | none => 0
    | some i => countLoop substr fuel (s.drop (i + substr.length)) + 1

/-- `strings.Count(s, substr)`: the number of non-overlapping occurrences, and
the number of characters plus one for the empty `substr`. -/
def Count (s substr : Str) : Nat :=
  if substr = [] then s.length + 1 else countLoop substr s.length s

/-- `strings.explode(s, n)`: `s` cut into single characters, at most `n` pieces. -/
def explode (s : Str) (n : Int) : List Str :=
  let l := s.length
  let k : Nat := if n < 0 ∨ (l : Int) < n then l else n.toNat
  if k = 0 then [] else (s.take (k - 1)).map (fun c => [c]) ++ [s.drop (k - 1)]

/-- The `for i < n` loop of `strings.genSplit`: at most `n` cuts, each at the
first occurrence of `sep` in what is left; the remainder is the last piece. -/
def splitLoop (sep : Str) : Nat → Str → List Str
  | 0, s => [s]
  | n + 1, s =>
    match Index s sep with
    | none => [s]
    | some m => s.take m :: splitLoop sep n (s.drop (m + sep.length))

/-- `strings.genSplit(s, sep, 0, n)`, the body of `Split` and `SplitN`. -/
def genSplit (s sep : Str) (n : Int) : List Str :=
  if n = 0 then []
  else if sep = [] then explode s n
  else
    let n1 : Nat := if n < 0 then Count s sep + 1 else n.toNat
    let n2 : Nat := if s.length + 1 < n1 then s.length + 1 else n1
    splitLoop sep (n2 - 1) s

/-- `strings.SplitN(s, sep, n)`. -/
def SplitN (s sep : Str) (n : Int) : List Str := genSplit s sep n

/-- `strings.Split(s, sep)`, which is `genSplit(s, sep, 0, -1)`. -/
def Split (s sep : Str) : List Str := genSplit s sep (-1)

/-- The replacement loop of `strings.Replace` for a non-empty `old`: `n`
rounds, each copying the text up to the next occurrence and then `new`.  Go
runs it with `n ≤ Count(s, old)`, so the occurrence is always there. -/
def replaceLoop (old new : Str) : Nat → Str → Str
  | 0, s => s
  | n + 1, s =>
    match Index s old with
    | none => s
    | some j => s.take j ++ new ++ replaceLoop old new n (s.drop (j + old.length))

/-- The replacement loop of `strings.Replace` for the empty `old`, after the
first round: one character is copied, then `new`. -/
def replaceEmptyLoop (new : Str) : Nat → Str → Str
  | 0, s => s
  | _ + 1, [] => []
  | n + 1, c :: cs => c :: (new ++ replaceEmptyLoop new n cs)

/-- `strings.Replace(s, old, new, n)`; a negative `n` replaces every
occurrence. -/
def Replace (s old new : Str) (n : Int) : Str :=
  if old = new ∨ n = 0 then s
  else
    let m := Count s old
    if m = 0 then s
    else
      let k : Nat := if n < 0 ∨ (m : Int) < n then m else n.toNat
      if old = [] then new ++ replaceEmptyLoop new (k - 1) s
      else replaceLoop old new k s

/-- `unicode.ToLower(r)`, which `strings.ToLower` applies to every character:
up to `unicode.MaxASCII` the letters `A`..`Z` are moved to `a`..`z` and
nothing else changes; beyond it Go looks the character up in the case tables
of its `unicode` package (`unicode.To(unicode.LowerCase, r)`).  Those tables
are not in the repository and enter as the function `lower`. -/
def toLowerRune (lower : Char → Char) (c : Char) : Char :=
  if c.toNat < 128 then c.toLower else lower c

/-- `strings.ToLower(s)`, over the case table `lower`. -/
def ToLower (lower : Char → Char) (s : Str) : Str := s.map (toLowerRune lower)

/-! ## Go's `path/filepath` package -/

/-- The backward scan of `filepath.Ext` over the reversed path: `acc` holds the
characters already passed, in forward order. -/
def extScan : Str → Str → Str
  | [], _ => []
  | c :: rest, acc =>
    if c = '/' then [] else if c = '.' then c :: acc else extScan rest (c :: acc)

/-- `filepath.Ext(path)`: the suffix from the last `.` of the final element of
`path`, empty when that element has no `.`. -/
def Ext (path : Str) : Str := extScan path.reverse []

/-! ## Configuration constants -/

/-- Directory where the markdown pages are located. -/
def PagesDirectory : Str := "pages/".toList

/-- Output directory for the HTML files. -/
def OutputDirectory : Str := "out/".toList

/-- The string to replace in the template file. -/
def TemplateString : Str := "\x7b\x7b post \x7d\x7d".toList

/-! ## The pure functions of the program -/

/-- `isMarkdownFile(filename)`: the source compares element `1` of
`strings.Split(filename, ".")` with `"md"`. -/
def isMarkdownFile (filename : Str) : Bool :=
  let _filepath := Split filename ".".toList
  if _filepath.length < 2 then false
  else (Split filename ".".toList)[1]? == some "md".toList

/-- `normalize(filename)`: element `1` of the split at `/`, of that element `0`
of the split at `.`, lowered, spaces replaced by `-`, then `.html`.  `none` is
Go's index-out-of-range panic.  `lower` is the case table of `strings.ToLower`. -/
def normalize (lower : Char → Char) (filename : Str) : Option Str :=
  match (Split filename "/".toList)[1]? with
  | none => none
  | some seg =>
    match (Split seg ".".toList)[0]? with
    | none => none
    | some base =>
      some (Replace (ToLower lower base) " ".toList "-".toList (-1) ++ ".html".toList)

/-! ## The file tree and the process state -/

/-- What a path names: a regular file with its content, or a directory. -/
inductive Entry where
  | file (content : Str)
  | dir
  deriving DecidableEq

/-- The file tree: the existing paths with what they name.  Paths are compared
as written, relative to the working directory (`out`, `out/a.html`,
`template.html`); the order of the list is the order in which `filepath.Walk`
reports the paths. -/
abbrev FS := List (Str × Entry)

/-- `os.Lstat(path)`: what `path` names, `none` when nothing has that name. -/
def Lstat : FS → Str → Option Entry
  | [], _ => none
  | (p, e) :: rest, path => if p = path then some e else Lstat rest path

/-- `ioutil.ReadFile(filename)`: the content of a regular file, `none` for the
error Go returns when there is no such file or it is a directory. -/
def ReadFile (fs : FS) (filename : Str) : Option Str :=
  match Lstat fs filename with
  | some (Entry.file content) => some content
  | _ => none

/-- Whether some entry lies below the directory `path`. -/
def hasEntryBelow (fs : FS) (path : Str) : Bool :=
  fs.any (fun e => (path ++ ['/']).isPrefixOf e.1)

/-- `os.Remove(path)`: removes a file or an empty directory; `none` for the
error Go returns when nothing has that name or the directory is not empty. -/
def Remove (fs : FS) (path : Str) : Option FS :=
  match Lstat fs path with
  | none => none
  | some (Entry.file _) => some (fs.filter (fun e => e.1 ≠ path))
  | some Entry.dir =>
    if hasEntryBelow fs path then none else some (fs.filter (fun e => e.1 ≠ path))

/-- The directory a path lies in: the text before its last `/`; `none` for a
path without `/`, which lies in the working directory. -/
def parentDir (path : Str) : Option Str :=
  match path.reverse.dropWhile (fun c => c ≠ '/') with
  | [] => none
  | _ :: rest => some rest.reverse

/-- `ioutil.WriteFile(filename, data, 0644)`: overwrites a regular file or
creates it in an existing directory; `none` for the error Go returns when the
file system does not take `filename` as a name (`accepts`: the limits on the
length of a name, which the program can exceed by the `.html` it appends),
when `filename` is a directory, or when the directory it lies in does not
exist.  Permission bits and device errors are outside the model. -/
def WriteFile (accepts : Str → Bool) (fs : FS) (filename data : Str) : Option FS :=
  if accepts filename then
    match Lstat fs filename with
    | some Entry.dir => none
    | some (Entry.file _) =>
      some (fs.map (fun e => if e.1 = filename then (filename, Entry.file data) else e))
    | none =>
      match parentDir filename with
      | none => some (fs ++ [(filename, Entry.file data)])
      | some d =>
        if Lstat fs d = some Entry.dir then some (fs ++ [(filename, Entry.file data)])
        else none
  else none

/-- What the program takes from the machine it runs on and the repository does
not contain: the case table of Go's `unicode` package for the characters
beyond ASCII, and which paths the file system takes as the name of a file. -/
structure Host where
  lower : Char → Char
  accepts : Str → Bool

/-- The state the process acts on: the file tree, the lines printed so far,
and the directories registered with the watcher. -/
structure World where
  fs : FS
  stdout : List Str
  watched : List Str
  deriving DecidableEq

/-- How a call ends: it returns a value, the process exits through `os.Exit`,
or it dies in `panic` (as `handle` does on a non-nil error; Go then exits with
status 2). -/
inductive Res (α : Type) where
  | ok (val : α) (w : World)
  | exit (code : Nat) (w : World)
  | panicked (w : World)
  deriving DecidableEq

/-- Sequencing: what follows a call runs only when the call returns. -/
def Res.bind {α β : Type} (r : Res α) (f : α → World → Res β) : Res β :=
  match r with
  | Res.ok a w => f a w
  | Res.exit code w => Res.exit code w
  | Res.panicked w => Res.panicked w

/-- `fmt.Println(line)`. -/
def println (line : Str) (w : World) : World :=
  { w with stdout := w.stdout ++ [line] }

/-- The path `filepath.Walk` looks up for a root written with a trailing `/`. -/
def trimSlash (root : Str) : Str :=
  if root.getLast? = some '/' then root.dropLast else root

/-- The calls `filepath.Walk(root, walkFn)` makes, in order: the root as it was
written, then, when the root is a directory, every entry below it under its
own path.  A root for which `os.Lstat` fails is reported with a nil
`FileInfo`: one that does not exist, and one written with a trailing `/` that
names a regular file. -/
def walkList (fs : FS) (root : Str) : List (Str × Option Entry) :=
  match Lstat fs (trimSlash root) with
  | some Entry.dir =>
    (root, some Entry.dir) ::
      (fs.filter (fun e => (trimSlash root ++ ['/']).isPrefixOf e.1)).map
        (fun e => (e.1, some e.2))
  | some (Entry.file content) =>
    if root.getLast? = some '/' then [(root, none)]
    else [(root, some (Entry.file content))]
  | none => [(root, none)]

/-- The walk over a list of calls; it stops where a call does not return. -/
def walkFrom (walkFn : Str → Option Entry → World → Res Unit) :
    List (Str × Option Entry) → World → Res Unit
  | [], w => Res.ok () w
  | (path, info) :: rest, w =>
    (walkFn path info w).bind (fun _ w1 => walkFrom walkFn rest w1)

/-- `filepath.Walk(root, walkFn)` for a `walkFn` that returns `nil` whenever it
returns, as both callbacks of the program do.  The calls are fixed on entry:
the callbacks of the program remove only the path they are called with, or
write outside the tree being walked. -/
def Walk (root : Str) (walkFn : Str → Option Entry → World → Res Unit)
    (w : World) : Res Unit :=
  walkFrom walkFn (walkList w.fs root) w

/-! ## The program -/

/-- The callback of `clean`: an entry with extension `.html` is removed, and
`handle` panics when `os.Remove` fails. -/
def cleanFn (path : Str) (_info : Option Entry) (w : World) : Res Unit :=
  if Ext path = ".html".toList then
    match Remove w.fs path with
    | none => Res.panicked w
    | some fs1 => Res.ok () { w with fs := fs1 }
  else Res.ok () w

/-- `clean()`: find and delete existing HTML files. -/
def clean (w : World) : Res Unit := Walk OutputDirectory cleanFn w

/-- The text `markdownToHtml` replaces, a closing code tag, a newline and an
opening code tag. -/
def codeBreakOld : Str := "</code>\n<code>".toList

/-- The text `markdownToHtml` puts in its place. -/
def codeBreakNew : Str := "</code>\n<br>\n<code>".toList

/-- `markdownToHtml(filename)`.  The rendering engine `markdown.ToHTML` is an
external collaborator and enters as the function `toHTML`. -/
def markdownToHtml (toHTML : Str → Str) (filename : Str) (w : World) : Res Str :=
  match ReadFile w.fs filename with
  | none => Res.panicked w
  | some file => Res.ok (Replace (toHTML file) codeBreakOld codeBreakNew (-1)) w

/-- The line `insertIntoTemplate` prints when the template has no marker. -/
def markerMissing : Str :=
  "ERROR: Can\x27t find \x22".toList ++ TemplateString ++ "\x22 template string.".toList

/-- `insertIntoTemplate(filename, content)`. -/
def insertIntoTemplate (filename content : Str) (w : World) : Res Str :=
  match ReadFile w.fs filename with
  | none => Res.panicked w
  | some file =>
    if !Contains file TemplateString then Res.exit 1 (println markerMissing w)
    else
      let template := SplitN file TemplateString (-1)
      match template[0]?, template[1]? with
      | some t0, some t1 => Res.ok (t0 ++ content ++ t1) w
      | _, _ => Res.panicked w

/-- `update(filename)`: run the conversion process on a file. -/
def update (toHTML : Str → Str) (host : Host) (filename : Str) (w : World) : Res Unit :=
  (markdownToHtml toHTML filename (println ("Updating ".toList ++ filename) w)).bind
    fun html w1 =>
      (insertIntoTemplate "template.html".toList html w1).bind
        fun htmlContent w2 =>
          match normalize host.lower filename with
          | none => Res.panicked w2
          | some name =>
            match WriteFile host.accepts w2.fs (OutputDirectory ++ name) htmlContent with
            | none => Res.panicked w2
            | some fs1 => Res.ok () { w2 with fs := fs1 }

/-- `watchDir(path, fi, err)`, the walk function: a markdown file is updated, a
directory is registered with the watcher (`watcher.Add`, taken to succeed).
With a nil `fi` the call `fi.Mode()` panics. -/
def watchDir (toHTML : Str → Str) (host : Host) (path : Str) (fi : Option Entry)
    (w : World) : Res Unit :=
  (if isMarkdownFile path then update toHTML host path w else Res.ok () w).bind
    fun _ w1 =>
      match fi with
      | none => Res.panicked w1
      | some Entry.dir => Res.ok () { w1 with watched := w1.watched ++ [path] }
      | some (Entry.file _) => Res.ok () w1

/-- The walk of the commands `generate` and `run`:
`filepath.Walk(PagesDirectory, watchDir)`. -/
def generate (toHTML : Str → Str) (host : Host) (w : World) : Res Unit :=
  Walk PagesDirectory (watchDir toHTML host) w

/-- What the goroutine of `run` receives in one round of its `select`: an
event with the name of the affected path, or an error of the watcher. -/
inductive Msg where
  | event (name : Str)
  | error (err : Str)

/-- One round of the goroutine: an event for a markdown file runs `update`, an
error is printed.  `Res.ok` is the return to the head of the loop. -/
def react (toHTML : Str → Str) (host : Host) (m : Msg) (w : World) : Res Unit :=
  match m with
  | Msg.event name =>
    if isMarkdownFile name then update toHTML host name w else Res.ok () w
  | Msg.error err => Res.ok () (println ("ERROR ".toList ++ err) w)

/-- The part of the command `run` that precedes the watch loop: `clean()`,
then `filepath.Walk(PagesDirectory, watchDir)`. -/
def cleanThenGenerate (toHTML : Str → Str) (host : Host) (w : World) : Res Unit :=
  (clean w).bind (fun _ w1 => generate toHTML host w1)

/-! ## The notions the claims are stated with -/

/-- The paths of a file tree. -/
def paths (fs : FS) : List Str := fs.map Prod.fst

/-- An `.html` artifact: a path below `out/` with extension `.html`, which is
what `clean` removes. -/
def isArtifact (path : Str) : Bool :=
  OutputDirectory.isPrefixOf path && decide (Ext path = ".html".toList)

/-- What the walk hands to `update`: a path below `pages/` that
`isMarkdownFile` accepts. -/
def isSourceDoc (path : Str) : Bool :=
  PagesDirectory.isPrefixOf path && isMarkdownFile path

/-- The path `update(filename)` writes to: `OutputDirectory + normalize(filename)`. -/
def outputPath (lower : Char → Char) (filename : Str) : Option Str :=
  (normalize lower filename).map (fun name => OutputDirectory ++ name)

/-- What the proofs use of the case table: it maps no character beyond ASCII
onto `/` or `.`.  Go's table maps a character onto a lower-case letter or
leaves it as it is. -/
def NoSeparator (lower : Char → Char) : Prop :=
  ∀ c : Char, 128 ≤ c.toNat → lower c ≠ '/' ∧ lower c ≠ '.'

/-- The `.html` artifacts of a file tree. -/
def artifacts (fs : FS) : List Str := (paths fs).filter isArtifact

/-- The paths of a file tree that the walk hands to `update`. -/
def sourceDocs (fs : FS) : List Str := (paths fs).filter isSourceDoc

/-! ## The classifier and the normalizer as the specification words them -/

/-- The classifier of the specification: the text after the last `.` of the
final path component is `md`, that is, `filepath.Ext` gives `.md`. -/
def hasMdExtension (path : Str) : Bool := decide (Ext path = ".md".toList)

/-- The final component of a path: the text behind its last `/`. -/
def finalComponent (path : Str) : Str :=
  (path.reverse.takeWhile (fun c => c ≠ '/')).reverse

/-- The normalizer of the specification: the final component of the path
without its extension, lowered, every space replaced by a hyphen, then
`.html`. -/
def specNormalize (lower : Char → Char) (path : Str) : Str :=
  Replace
      (ToLower lower
        ((finalComponent path).take ((finalComponent path).length - (Ext path).length)))
      " ".toList "-".toList (-1)
    ++ ".html".toList

/-- The output path of the specification: the normalized name in the output
directory. -/
def specOutputPath (lower : Char → Char) (path : Str) : Str :=
  OutputDirectory ++ specNormalize lower path

/-- The source documents of a file tree, by the classifier of the
specification: the paths below `pages/` with the extension `.md`. -/
def specSourceDocs (fs : FS) : List Str :=
  (paths fs).filter (fun p => PagesDirectory.isPrefixOf p && hasMdExtension p)

/-- A path that lies directly in `pages/` and has at most one `.` in its name.
On such a path the element `1` that `isMarkdownFile` and `normalize` take is
the extension and the final component. -/
def isPlainPage (path : Str) : Bool :=
  PagesDirectory.isPrefixOf path &&
    decide ('/' ∉ path.drop PagesDirectory.length) &&
    decide ((path.drop PagesDirectory.length).count '.' ≤ 1)

/-! ## A host for the concrete cases -/

/-- A case table for the concrete cases: the upper-case letters of the Latin-1
block, `À`..`Þ` without `×`, go to their lower-case forms, as in Go's table;
every other character stays. -/
def latin1Lower (c : Char) : Char :=
  if 192 ≤ c.toNat ∧ c.toNat ≤ 222 ∧ c.toNat ≠ 215 then Char.ofNat (c.toNat + 32) else c

/-- The rule of a file system with names of at most 255 bytes: the final
component of the path, in UTF-8, is no longer. -/
def nameFits (path : Str) : Bool :=
  decide (((finalComponent path).map Char.utf8Size).sum ≤ 255)

/-- The host of the concrete cases. -/
def sampleHost : Host := ⟨latin1Lower, nameFits⟩

/-- Two file trees agree at every path but `path`. -/
def SameExceptAt (path : Str) (fs1 fs2 : FS) : Prop :=
  ∀ q, q ≠ path → Lstat fs2 q = Lstat fs1 q

/-- The file tree is fit for publishing: no path listed twice, `out` a
directory, the template readable, no artifact path a directory. -/
structure Publishable (tpl : Str) (fs : FS) : Prop where
  nodup : (paths fs).Nodup
  out : Lstat fs "out".toList = some Entry.dir
  template : ReadFile fs "template.html".toList = some tpl
  artifact : ∀ q, isArtifact q = true → Lstat fs q ≠ some Entry.dir

/-! ## Facts about `Index` -/

theorem Index_eq_none {s sub : Str} : Index s sub = none ↔ ¬ sub <:+: s := by
  induction s with
  | nil =>
    simp only [Index, List.isPrefixOf_iff_prefix, List.infix_nil, List.prefix_nil]
    by_cases h : sub = [] <;> simp [h]
  | cons c cs ih =>
    simp only [Index, List.isPrefixOf_iff_prefix, List.infix_cons_iff]
    by_cases h : sub <+: c :: cs
    · simp [h]
    · simp [h, ih]

theorem Index_some_spec {s sub : Str} {m : Nat} (h : Index s sub = some m) :
    sub <+: s.drop m ∧ ∀ i, i < m → ¬ sub <+: s.drop i := by
  induction s generalizing m with
  | nil =>
    simp only [Index, List.isPrefixOf_iff_prefix] at h
    split at h
    · cases h
      rename_i h0
      exact ⟨by simpa using h0, fun i hi => absurd hi (Nat.not_lt_zero i)⟩
    · cases h
  | cons c cs ih =>
    simp only [Index, List.isPrefixOf_iff_prefix] at h
    split at h
    · cases h
      rename_i h0
      exact ⟨by simpa using h0, fun i hi => absurd hi (Nat.not_lt_zero i)⟩
    · rename_i h0
      cases hcs : Index cs sub with
      | none => simp [hcs] at h
      | some k =>
        simp only [hcs, Option.map_some', Option.some.injEq] at h
        subst h
        obtain ⟨h1, h2⟩ := ih hcs
        refine ⟨by simpa using h1, fun i hi => ?_⟩
        cases i with
        | zero => simpa using h0
        | succ j => simpa using h2 j (by omega)

theorem Index_of_occurrence {s sub : Str} {i : Nat} (h : sub <+: s.drop i) :
    ∃ m, m ≤ i ∧ Index s sub = some m := by
  cases hI : Index s sub with
  | none =>
    exfalso
    rw [Index_eq_none] at hI
    apply hI
    obtain ⟨t, ht⟩ := h
    refine ⟨s.take i, t, ?_⟩
    rw [List.append_assoc, ht, List.take_append_drop]
  | some m =>
    refine ⟨m, ?_, rfl⟩
    by_contra hlt
    exact (Index_some_spec hI).2 i (by omega) h

theorem Index_some_split {s sub : Str} {m : Nat} (h : Index s sub = some m) :
    s = s.take m ++ (sub ++ s.drop (m + sub.length)) := by
  have h1 := (Index_some_spec h).1
  rw [List.prefix_iff_eq_append, List.drop_drop] at h1
  rw [h1, List.take_append_drop]

theorem Index_some_le {s sub : Str} {m : Nat} (h : Index s sub = some m) :
    m + sub.length ≤ s.length := by
  have h1 := (Index_some_spec h).1.length_le
  rw [List.length_drop] at h1
  by_cases hs : sub = []
  · subst hs
    have : m = 0 := by
      by_contra hm
      exact (Index_some_spec h).2 0 (by omega) (List.nil_prefix)
    simp [this]
  · have : 0 < sub.length := List.length_pos.mpr hs
    omega

/-! ## Facts about `Count`, `Split` and `Replace` -/

theorem Index_nil_of_ne {sub : Str} (h : sub ≠ []) : Index [] sub = none := by
  rw [Index_eq_none, List.infix_nil]
  exact h

theorem countLoop_fuel {sub : Str} (hsub : sub ≠ []) :
    ∀ (k1 k2 : Nat) (s : Str), s.length ≤ k1 → s.length ≤ k2 →
      countLoop sub k1 s = countLoop sub k2 s := by
  intro k1
  induction k1 with
  | zero =>
    intro k2 s h1 _
    have hs : s = [] := List.length_eq_zero.mp (by omega)
    subst hs
    cases k2 with
    | zero => rfl
    | succ k => simp [countLoop, Index_nil_of_ne hsub]
  | succ k ih =>
    intro k2 s h1 h2
    cases k2 with
    | zero =>
      have hs : s = [] := List.length_eq_zero.mp (by omega)
      subst hs
      simp [countLoop, Index_nil_of_ne hsub]
    | succ k' =>
      simp only [countLoop]
      cases hI : Index s sub with
      | none => rfl
      | some m =>
        have hle := Index_some_le hI
        have hpos : 0 < sub.length := List.length_pos.mpr hsub
        simp only
        rw [ih k' (s.drop (m + sub.length)) (by rw [List.length_drop]; omega)
          (by rw [List.length_drop]; omega)]

theorem Count_of_Index_none {s sub : Str} (hsub : sub ≠ []) (h : Index s sub = none) :
    Count s sub = 0 := by
  simp only [Count, hsub, if_false]
  cases hl : s.length with
  | zero => rfl
  | succ k => simp [countLoop, h]

theorem Count_of_Index_some {s sub : Str} {m : Nat} (hsub : sub ≠ [])
    (h : Index s sub = some m) :
    Count s sub = Count (s.drop (m + sub.length)) sub + 1 := by
  have hle := Index_some_le h
  have hpos : 0 < sub.length := List.length_pos.mpr hsub
  simp only [Count, hsub, if_false]
  cases hl : s.length with
  | zero => omega
  | succ k =>
    simp only [countLoop, h]
    rw [countLoop_fuel hsub k (s.drop (m + sub.length)).length _
      (by rw [List.length_drop]; omega) (le_refl _)]

theorem Count_le_length {s sub : Str} (hsub : sub ≠ []) : Count s sub ≤ s.length := by
  obtain ⟨n, hn⟩ : ∃ n, s.length = n := ⟨_, rfl⟩
  induction n using Nat.strong_induction_on generalizing s with
  | _ n ih =>
    cases hI : Index s sub with
    | none => rw [Count_of_Index_none hsub hI]; omega
    | some m =>
      have hle := Index_some_le hI
      have hpos : 0 < sub.length := List.length_pos.mpr hsub
      rw [Count_of_Index_some hsub hI]
      have := ih (s.drop (m + sub.length)).length (by rw [List.length_drop]; omega) rfl
      rw [List.length_drop] at this
      omega

theorem Split_eq_splitLoop {s sub : Str} (hsub : sub ≠ []) :
    Split s sub = splitLoop sub (Count s sub) s := by
  have := Count_le_length (s := s) hsub
  have h1 : ¬ (s.length + 1 < Count s sub + 1) := by omega
  simp [Split, genSplit, hsub, h1]

/-- The unfolding equation of `Split` where the separator does not occur. -/
theorem Split_of_Index_none {s sub : Str} (hsub : sub ≠ []) (h : Index s sub = none) :
    Split s sub = [s] := by
  rw [Split_eq_splitLoop hsub, Count_of_Index_none hsub h]
  rfl

/-- The unfolding equation of `Split` at the first occurrence of the separator. -/
theorem Split_of_Index_some {s sub : Str} {m : Nat} (hsub : sub ≠ [])
    (h : Index s sub = some m) :
    Split s sub = s.take m :: Split (s.drop (m + sub.length)) sub := by
  rw [Split_eq_splitLoop hsub, Split_eq_splitLoop hsub, Count_of_Index_some hsub h]
  simp [splitLoop, h]

theorem Split_ne_nil {s sub : Str} (hsub : sub ≠ []) : Split s sub ≠ [] := by
  cases hI : Index s sub with
  | none => simp [Split_of_Index_none hsub hI]
  | some m => simp [Split_of_Index_some hsub hI]

/-- No piece of `Split s sub` contains the separator. -/
theorem Split_piece_free {s sub : Str} (hsub : sub ≠ []) :
    ∀ p, p ∈ Split s sub → ¬ sub <:+: p := by
  obtain ⟨n, hn⟩ : ∃ n, s.length = n := ⟨_, rfl⟩
  induction n using Nat.strong_induction_on generalizing s with
  | _ n ih =>
    intro p hp
    cases hI : Index s sub with
    | none =>
      rw [Split_of_Index_none hsub hI, List.mem_singleton] at hp
      subst hp
      exact Index_eq_none.mp hI
    | some m =>
      have hle := Index_some_le hI
      have hpos : 0 < sub.length := List.length_pos.mpr hsub
      rw [Split_of_Index_some hsub hI, List.mem_cons] at hp
      rcases hp with hp | hp
      · subst hp
        rintro ⟨u, v, huv⟩
        have hsplit := Index_some_split hI
        have hocc : sub <+: s.drop u.length := by
          refine ⟨v ++ (sub ++ s.drop (m + sub.length)), ?_⟩
          have h2 : s = u ++ (sub ++ (v ++ (sub ++ s.drop (m + sub.length)))) := by
            conv_lhs => rw [hsplit, ← huv]
            simp [List.append_assoc]
          conv_rhs => rw [h2]
          rw [List.drop_left]
        have hlen : u.length + sub.length + v.length = m := by
          have := congrArg List.length huv
          simp only [List.length_append, List.length_take] at this
          omega
        exact (Index_some_spec hI).2 u.length (by omega) hocc
      · exact ih (s.drop (m + sub.length)).length (by rw [List.length_drop]; omega) rfl p hp

theorem Replace_eq_replaceLoop {s old new : Str} (hold : old ≠ []) (hne : old ≠ new) :
    Replace s old new (-1) = replaceLoop old new (Count s old) s := by
  simp only [Replace, hne, hold, false_or, if_false]
  by_cases h0 : Count s old = 0
  · simp [h0, replaceLoop]
  · simp [h0]

/-- The unfolding equation of `Replace` where `old` does not occur. -/
theorem Replace_of_Index_none {s old new : Str} (hold : old ≠ [])
    (h : Index s old = none) : Replace s old new (-1) = s := by
  by_cases hne : old = new
  · simp [Replace, hne]
  · rw [Replace_eq_replaceLoop hold hne, Count_of_Index_none hold h]
    rfl

/-- The unfolding equation of `Replace` at the first occurrence of `old`. -/
theorem Replace_of_Index_some {s old new : Str} {j : Nat} (hold : old ≠ [])
    (h : Index s old = some j) :
    Replace s old new (-1)
      = s.take j ++ (new ++ Replace (s.drop (j + old.length)) old new (-1)) := by
  by_cases hne : old = new
  · have h1 : Replace s old new (-1) = s := by simp [Replace, hne]
    have h2 : Replace (s.drop (j + old.length)) old new (-1) = s.drop (j + old.length) := by
      simp [Replace, hne]
    rw [h1, h2, ← hne]
    exact Index_some_split h
  · rw [Replace_eq_replaceLoop hold hne, Replace_eq_replaceLoop hold hne,
      Count_of_Index_some hold h]
    simp [replaceLoop, h]

theorem prefix_append_cases {x a b : Str} (h : x <+: a ++ b) :
    x <+: a ∨ (a.length < x.length ∧ x.take a.length = a ∧ x.drop a.length <+: b) := by
  obtain ⟨t, ht⟩ := h
  rcases List.append_eq_append_iff.mp ht with ⟨a', ha, _⟩ | ⟨c', hx, hb⟩
  · exact Or.inl ⟨a', ha.symm⟩
  · by_cases hc : c' = []
    · subst hc
      left
      rw [hx]
      simp
    · right
      have hpos : 0 < c'.length := List.length_pos.mpr hc
      subst hx
      refine ⟨by simp; omega, by simp, ?_⟩
      rw [List.drop_left]
      exact ⟨t, hb.symm⟩

theorem infix_iff_drop {x s : Str} : x <:+: s ↔ ∃ i, x <+: s.drop i := by
  constructor
  · rintro ⟨u, v, h⟩
    refine ⟨u.length, v, ?_⟩
    rw [← h, List.append_assoc, List.drop_left]
  · rintro ⟨i, t, h⟩
    refine ⟨s.take i, t, ?_⟩
    rw [List.append_assoc, h, List.take_append_drop]

/-- After `Replace(s, old, new, -1)` no occurrence of `old` is left, provided
`new` is at least as long as `old` and no occurrence of `old` can be put
together from a piece of `new` and the text around it: `F1` excludes one that
ends inside `new`, `F2` one that lies inside `new`, `F3` one that begins
inside `new`. -/
theorem Replace_occurrence_free {old new : Str} (hold : old ≠ [])
    (hlen : old.length ≤ new.length)
    (F1 : ∀ a, 0 < a → a < old.length → old.drop a ≠ new.take (old.length - a))
    (F2 : ∀ k, k + old.length ≤ new.length → ¬ old <+: new.drop k)
    (F3 : ∀ k, k < new.length → new.length < k + old.length →
      old.take (new.length - k) ≠ new.drop k)
    (s : Str) : Index (Replace s old new (-1)) old = none := by
  obtain ⟨n, hn⟩ : ∃ n, s.length = n := ⟨_, rfl⟩
  induction n using Nat.strong_induction_on generalizing s with
  | _ n ih =>
    cases hI : Index s old with
    | none => rw [Replace_of_Index_none hold hI]; exact hI
    | some j =>
      have hle := Index_some_le hI
      have hpos : 0 < old.length := List.length_pos.mpr hold
      have hR := ih _ (by rw [List.length_drop]; omega) (s.drop (j + old.length)) rfl
      rw [Replace_of_Index_some hold hI]
      generalize Replace (s.drop (j + old.length)) old new (-1) = R at hR
      rw [Index_eq_none] at hR ⊢
      rw [infix_iff_drop]
      rintro ⟨i, hi⟩
      have hPlen : (s.take j).length = j := by rw [List.length_take]; omega
      rw [List.drop_append_eq_append_drop, hPlen] at hi
      by_cases hij : i < j
      · -- the occurrence begins before the replaced one
        have h0 : i - j = 0 := by omega
        rw [h0, List.drop_zero] at hi
        have hfirst := (Index_some_spec hI).2 i hij
        have hsplit := Index_some_split hI
        have hdrop : s.drop i = (s.take j).drop i ++ (old ++ s.drop (j + old.length)) := by
          conv_lhs => rw [hsplit]
          rw [List.drop_append_eq_append_drop, hPlen, h0, List.drop_zero]
        have hal : ((s.take j).drop i).length = j - i := by
          rw [List.length_drop, hPlen]
        rcases prefix_append_cases hi with h1 | ⟨h1, h2, h3⟩
        · apply hfirst
          rw [hdrop]
          exact h1.trans (List.prefix_append _ _)
        · rw [hal] at h1 h3
          rcases prefix_append_cases h3 with h4 | ⟨h4, _, _⟩
          · rw [List.prefix_iff_eq_take, List.length_drop] at h4
            exact F1 (j - i) (by omega) h1 h4
          · rw [List.length_drop] at h4
            omega
      · -- the occurrence begins inside or behind the inserted text
        have hP : (s.take j).drop i = [] := by
          rw [List.drop_eq_nil_iff, hPlen]; omega
        rw [hP, List.nil_append, List.drop_append_eq_append_drop] at hi
        by_cases hk : i - j < new.length
        · have h0 : i - j - new.length = 0 := by omega
          rw [h0, List.drop_zero] at hi
          rcases prefix_append_cases hi with h1 | ⟨h1, h2, _⟩
          · have := h1.length_le
            rw [List.length_drop] at this
            exact F2 (i - j) (by omega) h1
          · rw [List.length_drop] at h1 h2
            exact F3 (i - j) hk (by omega) h2
        · have hN : new.drop (i - j) = [] := by
            rw [List.drop_eq_nil_iff]; omega
          rw [hN, List.nil_append] at hi
          exact hR (infix_iff_drop.mpr ⟨_, hi⟩)

/-- Every character of `Replace(s, old, new, -1)` comes from `s` or from `new`. -/
theorem Replace_mem (old new : Str) (hold : old ≠ []) (s : Str) :
    ∀ c, c ∈ Replace s old new (-1) → c ∈ s ∨ c ∈ new := by
  obtain ⟨n, hn⟩ : ∃ n, s.length = n := ⟨_, rfl⟩
  induction n using Nat.strong_induction_on generalizing s with
  | _ n ih =>
    intro c hc
    cases hI : Index s old with
    | none => rw [Replace_of_Index_none hold hI] at hc; exact Or.inl hc
    | some j =>
      have hle := Index_some_le hI
      have hpos : 0 < old.length := List.length_pos.mpr hold
      rw [Replace_of_Index_some hold hI, List.mem_append, List.mem_append] at hc
      rcases hc with hc | hc | hc
      · exact Or.inl (List.mem_of_mem_take hc)
      · exact Or.inr hc
      · rcases ih _ (by rw [List.length_drop]; omega) (s.drop (j + old.length)) rfl c hc
          with h | h
        · exact Or.inl (List.mem_of_mem_drop h)
        · exact Or.inr h

/-- The pieces of `Split`, joined by the separator, give the string back. -/
theorem intercalate_Split {sub : Str} (hsub : sub ≠ []) (s : Str) :
    sub.intercalate (Split s sub) = s := by
  obtain ⟨n, hn⟩ : ∃ n, s.length = n := ⟨_, rfl⟩
  induction n using Nat.strong_induction_on generalizing s with
  | _ n ih =>
    cases hI : Index s sub with
    | none => simp [Split_of_Index_none hsub hI, List.intercalate]
    | some m =>
      have hle := Index_some_le hI
      have hpos : 0 < sub.length := List.length_pos.mpr hsub
      have hr := ih _ (by rw [List.length_drop]; omega) (s.drop (m + sub.length)) rfl
      rw [Split_of_Index_some hsub hI]
      obtain ⟨x, xs, hx⟩ := List.exists_cons_of_ne_nil
        (Split_ne_nil (s := s.drop (m + sub.length)) hsub)
      rw [hx] at hr ⊢
      have : sub.intercalate (s.take m :: x :: xs)
          = s.take m ++ (sub ++ sub.intercalate (x :: xs)) := by
        simp [List.intercalate, List.intersperse]
      rw [this, hr]
      exact (Index_some_split hI).symm

/-- `Replace(s, old, new, -1)` is the pieces of `Split(s, old)` joined by `new`. -/
theorem Replace_eq_intercalate {old new : Str} (hold : old ≠ []) (s : Str) :
    Replace s old new (-1) = new.intercalate (Split s old) := by
  obtain ⟨n, hn⟩ : ∃ n, s.length = n := ⟨_, rfl⟩
  induction n using Nat.strong_induction_on generalizing s with
  | _ n ih =>
    cases hI : Index s old with
    | none => simp [Split_of_Index_none hold hI, Replace_of_Index_none hold hI, List.intercalate]
    | some m =>
      have hle := Index_some_le hI
      have hpos : 0 < old.length := List.length_pos.mpr hold
      have hr := ih _ (by rw [List.length_drop]; omega) (s.drop (m + old.length)) rfl
      rw [Split_of_Index_some hold hI, Replace_of_Index_some hold hI, hr]
      obtain ⟨x, xs, hx⟩ := List.exists_cons_of_ne_nil
        (Split_ne_nil (s := s.drop (m + old.length)) hold)
      rw [hx]
      simp [List.intercalate, List.intersperse]

theorem Count_eq_zero {s sub : Str} (hsub : sub ≠ []) (h : Count s sub = 0) :
    Index s sub = none := by
  cases hI : Index s sub with
  | none => rfl
  | some m => rw [Count_of_Index_some hsub hI] at h; omega

/-- Two occurrences of `x` that overlap make a part of `x` both its end and
its beginning. -/
theorem overlap_border {x s : Str} {m d : Nat} (h1 : x <+: s.drop m)
    (h2 : x <+: s.drop (m + d)) (hd : d ≤ x.length) :
    x.drop d = x.take (x.length - d) := by
  obtain ⟨t1, ht1⟩ := h1
  have h3 : s.drop (m + d) = x.drop d ++ t1 := by
    rw [← List.drop_drop, ← ht1, List.drop_append_of_le_length hd]
  rw [h3] at h2
  have h4 : x.take (x.length - d) <+: x.drop d ++ t1 := (List.take_prefix _ _).trans h2
  have h5 : x.drop d <+: x.drop d ++ t1 := List.prefix_append _ _
  have hl : (x.drop d).length = (x.take (x.length - d)).length := by
    rw [List.length_drop, List.length_take]; omega
  exact (List.prefix_of_prefix_length_le h5 h4 (by omega)).eq_of_length hl

/-- Where `sub` cannot overlap itself and occurs once by `Count`, every
occurrence is the first one. -/
theorem Index_unique {s sub : Str}
    (hunb : ∀ d, 0 < d → d < sub.length → sub.drop d ≠ sub.take (sub.length - d))
    {m p : Nat} (hI : Index s sub = some m)
    (hrest : Index (s.drop (m + sub.length)) sub = none) (hp : sub <+: s.drop p) :
    p = m := by
  have hfirst := Index_some_spec hI
  by_contra hne
  have hlt : m < p := by
    rcases Nat.lt_or_ge p m with h | h
    · exact absurd hp (hfirst.2 p h)
    · omega
  by_cases hfar : m + sub.length ≤ p
  · rw [Index_eq_none, infix_iff_drop] at hrest
    apply hrest
    refine ⟨p - (m + sub.length), ?_⟩
    rw [List.drop_drop]
    have : m + sub.length + (p - (m + sub.length)) = p := by omega
    rw [this]
    exact hp
  · have hp2 : sub <+: s.drop (m + (p - m)) := by
      have : m + (p - m) = p := by omega
      rw [this]; exact hp
    exact hunb (p - m) (by omega) (by omega) (overlap_border hfirst.1 hp2 (by omega))

theorem mem_iff_occurs {c : Char} {s : Str} : [c] <:+: s ↔ c ∈ s := by
  constructor
  · rintro ⟨u, v, h⟩
    rw [← h]
    simp
  · intro h
    obtain ⟨u, v, h⟩ := List.append_of_mem h
    exact ⟨u, v, by rw [h]; simp⟩

theorem toNat_ofNat_valid (n : Nat) (hv : n.isValidChar) : (Char.ofNat n).toNat = n := by
  unfold Char.ofNat
  rw [dif_pos hv]
  rfl

/-- Lowering maps no other character onto `/` or `.`, over a case table that
does not. -/
theorem toLowerRune_eq {lower : Char → Char} (hl : NoSeparator lower) {c d : Char}
    (hd : d = '/' ∨ d = '.') (h : toLowerRune lower c = d) : c = d := by
  unfold toLowerRune at h
  split at h
  · unfold Char.toLower at h
    simp only at h
    split at h
    · rename_i hc
      exfalso
      have h2 := congrArg Char.toNat h
      rw [toNat_ofNat_valid _ (Or.inl (by omega))] at h2
      rcases hd with rfl | rfl
      · have : '/'.toNat = 47 := by decide
        omega
      · have : '.'.toNat = 46 := by decide
        omega
    · exact h
  · rename_i hc
    exfalso
    obtain ⟨h1, h2⟩ := hl c (by omega)
    rcases hd with rfl | rfl
    · exact h1 h
    · exact h2 h

theorem not_mem_ToLower {lower : Char → Char} (hl : NoSeparator lower) {s : Str} {d : Char}
    (hd : d = '/' ∨ d = '.') (h : d ∉ s) : d ∉ ToLower lower s := by
  intro hm
  obtain ⟨c, hc, hcd⟩ := List.mem_map.mp hm
  rw [toLowerRune_eq hl hd hcd] at hc
  exact h hc

theorem dropWhile_to_slash (l rest : Str) (h : '/' ∉ l) :
    (l ++ '/' :: rest).dropWhile (fun c => c ≠ '/') = '/' :: rest := by
  induction l with
  | nil => simp [List.dropWhile]
  | cons a l ih =>
    have ha : a ≠ '/' := fun e => h (by simp [e])
    have hl : '/' ∉ l := fun e => h (by simp [e])
    simpa [List.dropWhile, ha] using ih hl

theorem TemplateString_unbordered : ∀ d, 0 < d → d < TemplateString.length →
    TemplateString.drop d ≠ TemplateString.take (TemplateString.length - d) := by
  intro d h0 h1
  have h2 : d < 10 := h1
  interval_cases d <;> decide

theorem codeBreak_F1 : ∀ a, 0 < a → a < codeBreakOld.length →
    codeBreakOld.drop a ≠ codeBreakNew.take (codeBreakOld.length - a) := by
  intro a h0 h1
  have h2 : a < 14 := h1
  interval_cases a <;> decide

theorem codeBreak_F2 : ∀ k, k + codeBreakOld.length ≤ codeBreakNew.length →
    ¬ codeBreakOld <+: codeBreakNew.drop k := by
  intro k h1
  have h2 : k + 14 ≤ 19 := h1
  rw [← List.isPrefixOf_iff_prefix]
  have h3 : k < 6 := by omega
  interval_cases k <;> decide

theorem codeBreak_F3 : ∀ k, k < codeBreakNew.length →
    codeBreakNew.length < k + codeBreakOld.length →
    codeBreakOld.take (codeBreakNew.length - k) ≠ codeBreakNew.drop k := by
  intro k h1 _
  have h2 : k < 19 := h1
  interval_cases k <;> decide

theorem space_F1 : ∀ a, 0 < a → a < " ".toList.length →
    " ".toList.drop a ≠ "-".toList.take (" ".toList.length - a) := by
  intro a h0 h1
  have h2 : a < 1 := h1
  omega

theorem space_F2 : ∀ k, k + " ".toList.length ≤ "-".toList.length →
    ¬ " ".toList <+: "-".toList.drop k := by
  intro k h1
  have h2 : k + 1 ≤ 1 := h1
  rw [← List.isPrefixOf_iff_prefix]
  have h3 : k < 1 := by omega
  interval_cases k; decide

theorem space_F3 : ∀ k, k < "-".toList.length →
    "-".toList.length < k + " ".toList.length →
    " ".toList.take ("-".toList.length - k) ≠ "-".toList.drop k := by
  intro k h1 h2
  have h3 : k < 1 := h1
  have h4 : 1 < k + 1 := h2
  omega

/-- Every character of a piece of `Split s sub` is a character of `s`. -/
theorem Split_piece_mem {s sub : Str} (hsub : sub ≠ []) :
    ∀ p, p ∈ Split s sub → ∀ c, c ∈ p → c ∈ s := by
  obtain ⟨n, hn⟩ : ∃ n, s.length = n := ⟨_, rfl⟩
  induction n using Nat.strong_induction_on generalizing s with
  | _ n ih =>
    intro p hp c hc
    cases hI : Index s sub with
    | none =>
      rw [Split_of_Index_none hsub hI, List.mem_singleton] at hp
      subst hp
      exact hc
    | some m =>
      have hle := Index_some_le hI
      have hpos : 0 < sub.length := List.length_pos.mpr hsub
      rw [Split_of_Index_some hsub hI, List.mem_cons] at hp
      rcases hp with hp | hp
      · subst hp
        exact List.mem_of_mem_take hc
      · exact List.mem_of_mem_drop
          (ih (s.drop (m + sub.length)).length (by rw [List.length_drop]; omega) rfl p hp c hc)

@[simp] theorem println_fs (line : Str) (w : World) : (println line w).fs = w.fs := rfl

theorem markdownToHtml_ok (toHTML : Str → Str) {filename : Str} (src : Str) {w : World}
    (h : ReadFile w.fs filename = some src) :
    markdownToHtml toHTML filename w
      = Res.ok (Replace (toHTML src) codeBreakOld codeBreakNew (-1)) w := by
  simp only [markdownToHtml, h]

theorem insertIntoTemplate_missing {filename : Str} (tpl content : Str) {w : World}
    (h : ReadFile w.fs filename = some tpl) (hno : Contains tpl TemplateString = false) :
    insertIntoTemplate filename content w = Res.exit 1 (println markerMissing w) := by
  simp only [insertIntoTemplate, h, hno]
  rfl

/-- What `normalize` returns for a path with a `/`. -/
theorem normalize_spec {lower : Char → Char} (hl : NoSeparator lower) (filename : Str)
    (h : '/' ∈ filename) :
    ∃ base, normalize lower filename = some (base ++ ".html".toList) ∧
      '/' ∉ base ∧ ' ' ∉ base ∧ '.' ∉ base := by
  have hsl : "/".toList ≠ [] := by decide
  have hdot : ".".toList ≠ [] := by decide
  have hsp : " ".toList ≠ [] := by decide
  -- element 1 of the split at `/`
  obtain ⟨i, hi⟩ := infix_iff_drop.mp (mem_iff_occurs.mpr h)
  have hi1 : "/".toList <+: filename.drop i := hi
  obtain ⟨m, _, hI⟩ := Index_of_occurrence hi1
  obtain ⟨seg, segs, hseg⟩ := List.exists_cons_of_ne_nil
    (Split_ne_nil (s := filename.drop (m + "/".toList.length)) hsl)
  have hS : Split filename "/".toList = filename.take m :: seg :: segs := by
    rw [Split_of_Index_some hsl hI, hseg]
  have hsegsl : '/' ∉ seg := fun hc =>
    Split_piece_free hsl seg (by rw [hseg]; simp) (mem_iff_occurs.mpr hc)
  -- element 0 of the split at `.`
  obtain ⟨base, bases, hbase⟩ := List.exists_cons_of_ne_nil (Split_ne_nil (s := seg) hdot)
  have hbdot : '.' ∉ base := fun hc =>
    Split_piece_free hdot base (by rw [hbase]; simp) (mem_iff_occurs.mpr hc)
  have hbsl : '/' ∉ base := fun hc =>
    hsegsl (Split_piece_mem hdot base (by rw [hbase]; simp) _ hc)
  -- lowering and the replacement of spaces
  have hmem := Replace_mem " ".toList "-".toList hsp (ToLower lower base)
  have hfree := Replace_occurrence_free hsp (by decide) space_F1 space_F2 space_F3
    (ToLower lower base)
  have hrsl : '/' ∉ Replace (ToLower lower base) " ".toList "-".toList (-1) := by
    intro hc
    rcases hmem _ hc with h1 | h1
    · exact not_mem_ToLower hl (Or.inl rfl) hbsl h1
    · exact absurd h1 (by decide)
  have hrdot : '.' ∉ Replace (ToLower lower base) " ".toList "-".toList (-1) := by
    intro hc
    rcases hmem _ hc with h1 | h1
    · exact not_mem_ToLower hl (Or.inr rfl) hbdot h1
    · exact absurd h1 (by decide)
  have hrsp : ' ' ∉ Replace (ToLower lower base) " ".toList "-".toList (-1) := fun hc =>
    Index_eq_none.mp hfree (mem_iff_occurs.mpr hc)
  refine ⟨Replace (ToLower lower base) " ".toList "-".toList (-1), ?_, hrsl, hrsp, hrdot⟩
  have h1 : (filename.take m :: seg :: segs)[1]? = some seg := by simp
  have h0 : (base :: bases)[0]? = some base := by simp
  simp only [normalize, hS, h1, hbase, h0]

/-- A file named `b ++ ".html"` with no `/` in `b`, put behind
`OutputDirectory`, lies in the directory `out`. -/
theorem parentDir_out (b : Str) (hb : '/' ∉ b) :
    parentDir (OutputDirectory ++ (b ++ ".html".toList)) = some "out".toList := by
  have hrev : (OutputDirectory ++ (b ++ ".html".toList)).reverse
      = ("lmth.".toList ++ b.reverse) ++ '/' :: "tuo".toList := by
    simp [OutputDirectory]
  have hno : '/' ∉ "lmth.".toList ++ b.reverse := by
    intro hc
    rcases List.mem_append.mp hc with h1 | h1
    · exact absurd h1 (by decide)
    · exact hb (List.mem_reverse.mp h1)
  simp only [parentDir, hrev, dropWhile_to_slash _ _ hno]
  rfl

/-! ## Facts about the file tree -/

theorem Lstat_eq_none {fs : FS} {q : Str} : Lstat fs q = none ↔ q ∉ paths fs := by
  induction fs with
  | nil => simp [Lstat, paths]
  | cons x xs ih =>
    obtain ⟨p, e⟩ := x
    have hp : paths ((p, e) :: xs) = p :: paths xs := rfl
    rw [hp, List.mem_cons, not_or]
    by_cases h : p = q
    · simp only [Lstat, h, if_true]
      exact ⟨fun h1 => (by cases h1), fun h1 => absurd trivial h1.1⟩
    · have h2 : ¬ q = p := fun e => h e.symm
      simp only [Lstat, h, if_false]
      exact ⟨fun h1 => ⟨h2, ih.mp h1⟩, fun h1 => ih.mpr h1.2⟩

theorem Lstat_mem {fs : FS} {q : Str} {e : Entry} (h : Lstat fs q = some e) :
    (q, e) ∈ fs := by
  induction fs with
  | nil => simp [Lstat] at h
  | cons x xs ih =>
    obtain ⟨p, e1⟩ := x
    by_cases hp : p = q
    · simp only [Lstat, hp, if_true, Option.some.injEq] at h
      subst h; subst hp
      exact List.mem_cons_self _ _
    · simp only [Lstat, hp, if_false] at h
      exact List.mem_cons_of_mem _ (ih h)

theorem Lstat_of_mem {fs : FS} {q : Str} {e : Entry} (hN : (paths fs).Nodup)
    (h : (q, e) ∈ fs) : Lstat fs q = some e := by
  induction fs with
  | nil => simp at h
  | cons x xs ih =>
    obtain ⟨p, e1⟩ := x
    simp only [paths, List.map_cons, List.nodup_cons] at hN
    rcases List.mem_cons.mp h with h1 | h1
    · cases h1
      simp [Lstat]
    · have hp : p ≠ q := by
        intro hpq
        subst hpq
        exact hN.1 (List.mem_map_of_mem Prod.fst h1)
      simp only [Lstat, hp, if_false]
      exact ih hN.2 h1

/-- Filtering by path keeps what the kept paths name. -/
theorem Lstat_filter (keep : Str → Bool) (fs : FS) (q : Str) (h : keep q = true) :
    Lstat (fs.filter (fun e => keep e.1)) q = Lstat fs q := by
  induction fs with
  | nil => rfl
  | cons x xs ih =>
    obtain ⟨p, e⟩ := x
    by_cases hk : keep p = true
    · simp only [List.filter_cons, hk, if_true, Lstat, ih]
    · have hpq : p ≠ q := fun e => hk (e ▸ h)
      simp only [List.filter_cons, hk, Lstat, hpq, if_false, ih]
      exact ih

theorem paths_filter (keep : Str → Bool) (fs : FS) :
    paths (fs.filter (fun e => keep e.1)) = (paths fs).filter keep := by
  simp only [paths, List.filter_map]
  rfl

theorem Remove_ok {fs : FS} {q : Str} (hq : q ∈ paths fs)
    (hb : hasEntryBelow fs q = false) :
    Remove fs q = some (fs.filter (fun e => e.1 ≠ q)) := by
  unfold Remove
  cases hL : Lstat fs q with
  | none => exact absurd hq (Lstat_eq_none.mp hL)
  | some e =>
    cases e with
    | file c => rfl
    | dir => simp [hb]

theorem hasEntryBelow_filter (keep : Str × Entry → Bool) {fs : FS} {q : Str}
    (hb : hasEntryBelow fs q = false) : hasEntryBelow (fs.filter keep) q = false := by
  unfold hasEntryBelow at *
  rw [List.any_eq_false] at *
  intro e he
  exact hb e (List.mem_of_mem_filter he)

/-! ## The walk of `clean` -/

theorem Res_bind_ok {α β : Type} (a : α) (w : World) (f : α → World → Res β) :
    (Res.ok a w).bind f = f a w := rfl

/-- The walk of `clean` over calls with distinct paths, each an entry of the
tree and, when its extension is `.html`, with nothing below it: it returns,
and has removed the entries with extension `.html` among the paths called. -/
theorem clean_walk (L : List (Str × Option Entry)) :
    ∀ w : World, (L.map Prod.fst).Nodup →
      (∀ x, x ∈ L → Ext x.1 = ".html".toList →
        x.1 ∈ paths w.fs ∧ hasEntryBelow w.fs x.1 = false) →
      walkFrom cleanFn L w = Res.ok ()
        { w with fs := w.fs.filter (fun e =>
            !(decide (e.1 ∈ L.map Prod.fst) && decide (Ext e.1 = ".html".toList))) } := by
  induction L with
  | nil =>
    intro w _ _
    simp [walkFrom]
  | cons x rest ih =>
    intro w hN hE
    obtain ⟨p, info⟩ := x
    simp only [List.map_cons, List.nodup_cons] at hN
    by_cases hx : Ext p = ".html".toList
    · obtain ⟨hp, hb⟩ := hE (p, info) (List.mem_cons_self _ _) hx
      have hstep : cleanFn p info w
          = Res.ok () { w with fs := w.fs.filter (fun e => e.1 ≠ p) } := by
        simp only [cleanFn, hx, if_true, Remove_ok hp hb]
      rw [walkFrom, hstep, Res_bind_ok, ih _ hN.2]
      · congr 1
        simp only [List.filter_filter]
        congr 1
        apply List.filter_congr
        intro e _
        generalize ".html".toList = html at hx
        by_cases hep : e.1 = p
        · simp [hep, hx]
        · have hb : (e.1 == p) = false := by simpa using hep
          simp [hep, hb]
      · intro y hy hyx
        obtain ⟨h1, h2⟩ := hE y (List.mem_cons_of_mem _ hy) hyx
        have hne : y.1 ≠ p := fun e => hN.1 (e ▸ List.mem_map_of_mem Prod.fst hy)
        refine ⟨?_, hasEntryBelow_filter _ h2⟩
        have := paths_filter (fun q => decide (q ≠ p)) w.fs
        rw [this, List.mem_filter]
        exact ⟨h1, by simpa using hne⟩
    · have hstep : cleanFn p info w = Res.ok () w := by
        simp only [cleanFn, hx, if_false]
      rw [walkFrom, hstep, Res_bind_ok, ih _ hN.2]
      · congr 2
        apply List.filter_congr
        intro e _
        generalize ".html".toList = html at hx
        by_cases hep : e.1 = p
        · simp [hep, hx]
        · have hb : (e.1 == p) = false := by simpa using hep
          simp [hep, hb]
      · intro y hy hyx
        exact hE y (List.mem_cons_of_mem _ hy) hyx

theorem trimSlash_out : trimSlash OutputDirectory ++ ['/'] = OutputDirectory := by decide

theorem trimSlash_pages : trimSlash PagesDirectory ++ ['/'] = PagesDirectory := by decide

theorem mem_paths_of_mem {fs : FS} {e : Str × Entry} (h : e ∈ fs) : e.1 ∈ paths fs :=
  List.mem_map_of_mem Prod.fst h

/-- What `clean` does on a tree whose directory `out` exists, whose paths are
distinct and whose artifacts have nothing below them. -/
theorem clean_eq {w : World} (hOut : Lstat w.fs "out".toList = some Entry.dir)
    (hN : (paths w.fs).Nodup)
    (hE : ∀ q, q ∈ artifacts w.fs → hasEntryBelow w.fs q = false) :
    clean w = Res.ok () { w with fs := w.fs.filter (fun e => !isArtifact e.1) } := by
  have hroot : trimSlash OutputDirectory = "out".toList := by decide
  have hfirst : cleanFn OutputDirectory (some Entry.dir) w = Res.ok () w := by
    have : Ext OutputDirectory ≠ ".html".toList := by decide
    simp only [cleanFn, this, if_false]
  unfold clean Walk walkList
  rw [hroot, hOut]
  simp only
  rw [walkFrom, hfirst, Res_bind_ok]
  have hmap : ((w.fs.filter (fun e => ("out".toList ++ ['/']).isPrefixOf e.1)).map
      (fun e => (e.1, some e.2))).map Prod.fst
      = (paths w.fs).filter (fun q => OutputDirectory.isPrefixOf q) := by
    rw [List.map_map]
    exact paths_filter (fun q => OutputDirectory.isPrefixOf q) w.fs
  rw [clean_walk _ w (by rw [hmap]; exact hN.filter _)]
  · congr 2
    apply List.filter_congr
    intro e he
    rw [hmap]
    have hm : e.1 ∈ paths w.fs := mem_paths_of_mem he
    have h1 : decide (e.1 ∈ (paths w.fs).filter (fun q => OutputDirectory.isPrefixOf q))
        = OutputDirectory.isPrefixOf e.1 := by
      rw [Bool.eq_iff_iff, decide_eq_true_eq, List.mem_filter]
      exact ⟨fun h => h.2, fun h => ⟨hm, h⟩⟩
    rw [h1]
    rfl
  · intro x hx hext
    have hx1 : x.1 ∈ (paths w.fs).filter (fun q => OutputDirectory.isPrefixOf q) := by
      rw [← hmap]
      exact List.mem_map_of_mem Prod.fst hx
    rw [List.mem_filter] at hx1
    refine ⟨hx1.1, hE _ ?_⟩
    simp only [artifacts, List.mem_filter, isArtifact, Bool.and_eq_true, decide_eq_true_eq]
    exact ⟨hx1.1, hx1.2, hext⟩

/-! ## Writing a file and `update` -/

theorem Lstat_append (a b : FS) (q : Str) :
    Lstat (a ++ b) q = (Lstat a q).orElse (fun _ => Lstat b q) := by
  induction a with
  | nil => rfl
  | cons x xs ih =>
    obtain ⟨p, e⟩ := x
    by_cases h : p = q
    · simp only [List.cons_append, Lstat, h, if_true]
      rfl
    · simp only [List.cons_append, Lstat, h, if_false]
      exact ih

theorem Lstat_cons (p : Str) (e : Entry) (xs : FS) (q : Str) :
    Lstat ((p, e) :: xs) q = if p = q then some e else Lstat xs q := rfl

theorem Lstat_map_write (fs : FS) (q : Str) (c : Str) (q1 : Str) :
    Lstat (fs.map (fun e => if e.1 = q then (q, Entry.file c) else e)) q1
      = if q1 = q then (Lstat fs q).map (fun _ => Entry.file c) else Lstat fs q1 := by
  induction fs with
  | nil => simp [Lstat]
  | cons x xs ih =>
    obtain ⟨p, e⟩ := x
    rw [List.map_cons, Lstat_cons p e xs q, Lstat_cons p e xs q1]
    by_cases hp : p = q
    · have hg : (if (p, e).1 = q then (q, Entry.file c) else (p, e))
          = (q, Entry.file c) := if_pos hp
      rw [hg, Lstat_cons, ih]
      by_cases h1 : q1 = q
      · subst h1
        simp [hp]
      · have h2 : ¬ q = q1 := fun e => h1 e.symm
        have h3 : ¬ p = q1 := fun e => h1 (e.symm.trans hp)
        simp [h1, h2, h3]
    · have hg : (if (p, e).1 = q then (q, Entry.file c) else (p, e))
          = (p, e) := if_neg hp
      rw [hg, Lstat_cons, ih]
      by_cases h1 : q1 = q
      · subst h1
        simp [hp]
      · simp [h1, hp]

theorem paths_map_write (fs : FS) (q : Str) (c : Str) :
    paths (fs.map (fun e => if e.1 = q then (q, Entry.file c) else e)) = paths fs := by
  induction fs with
  | nil => rfl
  | cons x xs ih =>
    obtain ⟨p, e⟩ := x
    have h1 : paths ((p, e) :: xs) = p :: paths xs := rfl
    by_cases hp : p = q
    · simp only [List.map_cons, hp, if_true, h1]
      show q :: paths _ = q :: paths xs
      rw [ih]
    · simp only [List.map_cons, hp, if_false, h1]
      show p :: paths _ = p :: paths xs
      rw [ih]

/-- What a successful `WriteFile` leaves: the file at its path, the other
paths as they were, no path listed twice. -/
theorem WriteFile_spec {accepts : Str → Bool} {fs fs1 : FS} {q c : Str}
    (h : WriteFile accepts fs q c = some fs1) :
    Lstat fs1 q = some (Entry.file c) ∧ SameExceptAt q fs fs1 ∧
    (∀ q1, q1 ∈ paths fs1 ↔ q1 ∈ paths fs ∨ q1 = q) ∧
    ((paths fs).Nodup → (paths fs1).Nodup) := by
  have happ : ∀ (hL : Lstat fs q = none), fs1 = fs ++ [(q, Entry.file c)] →
      Lstat fs1 q = some (Entry.file c) ∧ SameExceptAt q fs fs1 ∧
      (∀ q1, q1 ∈ paths fs1 ↔ q1 ∈ paths fs ∨ q1 = q) ∧
      ((paths fs).Nodup → (paths fs1).Nodup) := by
    intro hL hfs
    subst hfs
    have hp : paths (fs ++ [(q, Entry.file c)]) = paths fs ++ [q] := by
      simp [paths]
    refine ⟨?_, ?_, ?_, ?_⟩
    · rw [Lstat_append, hL]
      simp [Lstat]
    · intro q1 hq1
      have hne : ¬ q = q1 := fun e => hq1 e.symm
      rw [Lstat_append]
      cases Lstat fs q1 with
      | none => simp [Lstat, hne]
      | some e => rfl
    · intro q1
      rw [hp]
      simp
    · intro hN
      rw [hp]
      refine List.Nodup.append hN (List.nodup_singleton q) ?_
      intro a ha hb
      rw [List.mem_singleton] at hb
      subst hb
      exact Lstat_eq_none.mp hL ha
  unfold WriteFile at h
  cases hacc : accepts q with
  | false => rw [hacc] at h; cases h
  | true =>
  rw [hacc] at h
  simp only [if_true] at h
  cases hL : Lstat fs q with
  | none =>
    rw [hL] at h
    simp only at h
    cases hpd : parentDir q with
    | none =>
      rw [hpd] at h
      simp only [Option.some.injEq] at h
      exact happ hL h.symm
    | some d =>
      rw [hpd] at h
      simp only at h
      split at h
      · simp only [Option.some.injEq] at h
        exact happ hL h.symm
      · cases h
  | some e =>
    rw [hL] at h
    cases e with
    | dir => cases h
    | file c0 =>
      simp only [Option.some.injEq] at h
      subst h
      refine ⟨?_, ?_, ?_, ?_⟩
      · rw [Lstat_map_write, if_pos rfl, hL]
        rfl
      · intro q1 hq1
        rw [Lstat_map_write, if_neg hq1]
      · intro q1
        rw [paths_map_write]
        constructor
        · exact Or.inl
        · rintro (h1 | h1)
          · exact h1
          · subst h1
            exact mem_paths_of_mem (Lstat_mem hL)
      · intro hN
        rw [paths_map_write]
        exact hN

theorem WriteFile_ok {accepts : Str → Bool} {fs : FS} {q d : Str} (c : Str)
    (h0 : accepts q = true) (h1 : Lstat fs q ≠ some Entry.dir)
    (h2 : parentDir q = some d) (h3 : Lstat fs d = some Entry.dir) :
    ∃ fs1, WriteFile accepts fs q c = some fs1 := by
  unfold WriteFile
  rw [h0]
  simp only [if_true]
  cases hL : Lstat fs q with
  | none =>
    refine ⟨fs ++ [(q, Entry.file c)], ?_⟩
    simp only [h2, h3, if_true]
  | some e =>
    cases e with
    | dir => exact absurd hL h1
    | file c0 => exact ⟨_, rfl⟩

theorem Ext_html (x : Str) : Ext (x ++ ".html".toList) = ".html".toList := by
  simp [Ext, extScan]

theorem insertIntoTemplate_ok {filename tpl : Str} (content : Str) {w : World}
    (h : ReadFile w.fs filename = some tpl) (hM : Contains tpl TemplateString = true) :
    ∃ t0 t1 rest, SplitN tpl TemplateString (-1) = t0 :: t1 :: rest ∧
      insertIntoTemplate filename content w = Res.ok (t0 ++ content ++ t1) w := by
  have hT : TemplateString ≠ [] := by decide
  obtain ⟨m, hI⟩ := Option.isSome_iff_exists.mp hM
  obtain ⟨t1, rest, hr⟩ := List.exists_cons_of_ne_nil
    (Split_ne_nil (s := tpl.drop (m + TemplateString.length)) hT)
  have hS : SplitN tpl TemplateString (-1) = tpl.take m :: t1 :: rest := by
    show Split _ _ = _
    rw [Split_of_Index_some hT hI, hr]
  refine ⟨_, _, _, hS, ?_⟩
  simp only [insertIntoTemplate, h, hM, hS]
  simp

theorem ReadFile_congr {fs1 fs2 : FS} {q : Str} (h : Lstat fs2 q = Lstat fs1 q) :
    ReadFile fs2 q = ReadFile fs1 q := by
  unfold ReadFile
  rw [h]

theorem not_isArtifact_of_pages {q : Str} (h : PagesDirectory <+: q) :
    isArtifact q = false := by
  obtain ⟨t, rfl⟩ := h
  simp [isArtifact, OutputDirectory, PagesDirectory, List.isPrefixOf]

theorem slash_mem_of_pages {q : Str} (h : PagesDirectory <+: q) : '/' ∈ q := by
  obtain ⟨t, rfl⟩ := h
  simp [PagesDirectory]

theorem normalize_html (lower : Char → Char) {p name : Str}
    (h : normalize lower p = some name) : ∃ base, name = base ++ ".html".toList := by
  unfold normalize at h
  split at h
  · cases h
  · split at h
    · cases h
    · simp only [Option.some.injEq] at h
      exact ⟨_, h.symm⟩

theorem isArtifact_outputPath {lower : Char → Char} {p q : Str}
    (h : outputPath lower p = some q) : isArtifact q = true := by
  unfold outputPath at h
  cases hn : normalize lower p with
  | none => rw [hn] at h; cases h
  | some name =>
    obtain ⟨base, rfl⟩ := normalize_html lower hn
    simp only [hn, Option.map_some', Option.some.injEq] at h
    subst h
    have h1 : OutputDirectory.isPrefixOf (OutputDirectory ++ (base ++ ".html".toList))
        = true := by
      rw [List.isPrefixOf_iff_prefix]
      exact List.prefix_append _ _
    have h2 : Ext (OutputDirectory ++ (base ++ ".html".toList)) = ".html".toList := by
      rw [← List.append_assoc]
      exact Ext_html _
    simp only [isArtifact, h1, h2, decide_True, Bool.and_self]

/-- When `update` returns: the source and the template are readable, the
template has the marker, the path has a `/`, `out` is a directory, the file
system takes the output path as a name and it does not name a directory.  It
then has written the composed page to `OutputDirectory + normalize(filename)`
and printed one line. -/
theorem update_ok (toHTML : Str → Str) {host : Host} (hl : NoSeparator host.lower)
    {p src tpl : Str} {w : World}
    (hsrc : ReadFile w.fs p = some src)
    (htpl : ReadFile w.fs "template.html".toList = some tpl)
    (hM : Contains tpl TemplateString = true) (hsl : '/' ∈ p)
    (hOut : Lstat w.fs "out".toList = some Entry.dir)
    (hq : ∀ q, outputPath host.lower p = some q →
      host.accepts q = true ∧ Lstat w.fs q ≠ some Entry.dir) :
    ∃ q t0 t1 rest fs1, outputPath host.lower p = some q ∧
      SplitN tpl TemplateString (-1) = t0 :: t1 :: rest ∧
      WriteFile host.accepts w.fs q
          (t0 ++ Replace (toHTML src) codeBreakOld codeBreakNew (-1) ++ t1)
        = some fs1 ∧
      update toHTML host p w
        = Res.ok () { println ("Updating ".toList ++ p) w with fs := fs1 } := by
  obtain ⟨base, hn, hb, _, _⟩ := normalize_spec hl p hsl
  have hout : outputPath host.lower p = some (OutputDirectory ++ (base ++ ".html".toList)) := by
    simp only [outputPath, hn, Option.map_some']
  obtain ⟨t0, t1, rest, hS, hins⟩ := insertIntoTemplate_ok
    (Replace (toHTML src) codeBreakOld codeBreakNew (-1))
    (w := println ("Updating ".toList ++ p) w) (by rw [println_fs]; exact htpl) hM
  obtain ⟨fs1, hW⟩ := WriteFile_ok
    (t0 ++ Replace (toHTML src) codeBreakOld codeBreakNew (-1) ++ t1)
    (hq _ hout).1 (hq _ hout).2 (parentDir_out base hb) hOut
  refine ⟨_, t0, t1, rest, fs1, hout, hS, hW, ?_⟩
  unfold update
  rw [markdownToHtml_ok toHTML src (by rw [println_fs]; exact hsrc), Res_bind_ok, hins,
    Res_bind_ok]
  simp only [hn, println_fs, hW]

theorem insertIntoTemplate_cases (filename content : Str) (w : World) :
    (∃ page, insertIntoTemplate filename content w = Res.ok page w) ∨
    insertIntoTemplate filename content w = Res.exit 1 (println markerMissing w) ∨
    insertIntoTemplate filename content w = Res.panicked w := by
  unfold insertIntoTemplate
  cases ReadFile w.fs filename with
  | none => exact Or.inr (Or.inr rfl)
  | some file =>
    simp only
    split
    · exact Or.inr (Or.inl rfl)
    · split
      · exact Or.inl ⟨_, rfl⟩
      · exact Or.inr (Or.inr rfl)

/-- The three ways `update` ends: a panic or `os.Exit(1)` with the file tree
untouched, or a return after one `WriteFile` to
`OutputDirectory + normalize(filename)`. -/
theorem update_cases (toHTML : Str → Str) (host : Host) (p : Str) (w : World) :
    update toHTML host p w = Res.panicked (println ("Updating ".toList ++ p) w) ∨
    update toHTML host p w
      = Res.exit 1 (println markerMissing (println ("Updating ".toList ++ p) w)) ∨
    ∃ q page fs1, outputPath host.lower p = some q ∧
      WriteFile host.accepts w.fs q page = some fs1 ∧
      update toHTML host p w
        = Res.ok () { println ("Updating ".toList ++ p) w with fs := fs1 } := by
  unfold update
  have hfs : (println ("Updating ".toList ++ p) w).fs = w.fs := rfl
  generalize println ("Updating ".toList ++ p) w = w0 at hfs ⊢
  rw [← hfs]
  cases hr : markdownToHtml toHTML p w0 with
  | exit code w1 =>
    unfold markdownToHtml at hr
    split at hr <;> cases hr
  | panicked w1 =>
    unfold markdownToHtml at hr
    split at hr
    · cases hr
      exact Or.inl rfl
    · cases hr
  | ok html w1 =>
    have hw : w1 = w0 := by
      unfold markdownToHtml at hr
      split at hr
      · cases hr
      · cases hr
        rfl
    subst hw
    rw [Res_bind_ok]
    rcases insertIntoTemplate_cases "template.html".toList html w1 with ⟨page, hi⟩ | hi | hi
    · rw [hi, Res_bind_ok]
      cases hn : normalize host.lower p with
      | none => exact Or.inl rfl
      | some name =>
        simp only
        cases hW : WriteFile host.accepts w1.fs (OutputDirectory ++ name) page with
        | none => exact Or.inl rfl
        | some fs1 =>
          refine Or.inr (Or.inr ⟨OutputDirectory ++ name, page, fs1, ?_, hW, rfl⟩)
          simp only [outputPath, hn, Option.map_some']
    · rw [hi]
      exact Or.inr (Or.inl rfl)
    · rw [hi]
      exact Or.inl rfl

/-! ## The walk of `generate` -/

/-- A write to an artifact path keeps the tree fit for publishing and leaves
every path that is no artifact as it was. -/
theorem Publishable_write {accepts : Str → Bool} {tpl : Str} {fs fs1 : FS} {q page : Str}
    (hP : Publishable tpl fs) (hq : isArtifact q = true)
    (hW : WriteFile accepts fs q page = some fs1) :
    Publishable tpl fs1 ∧ (∀ q1, isArtifact q1 = false → Lstat fs1 q1 = Lstat fs q1) := by
  obtain ⟨h1, h2, _, h4⟩ := WriteFile_spec hW
  have hframe : ∀ q1, isArtifact q1 = false → Lstat fs1 q1 = Lstat fs q1 := by
    intro q1 hq1
    apply h2
    intro e
    rw [e, hq] at hq1
    cases hq1
  refine ⟨⟨h4 hP.nodup, ?_, ?_, ?_⟩, hframe⟩
  · rw [hframe _ (by decide)]
    exact hP.out
  · rw [ReadFile_congr (hframe _ (by decide))]
    exact hP.template
  · intro q1 hq1
    by_cases e : q1 = q
    · rw [e, h1]
      intro h
      cases h
    · rw [h2 q1 e]
      exact hP.artifact q1 hq1

/-- The walk of `generate` over calls below `pages/` that carry a `FileInfo`
and whose markdown paths are readable and have output paths the file system
takes, on a tree fit for publishing: it returns, the paths that are no
artifacts are as they were, and the paths of the tree are the old ones and the
output paths of the markdown paths. -/
theorem generate_walk (toHTML : Str → Str) {host : Host} (hl : NoSeparator host.lower)
    {tpl : Str} (hM : Contains tpl TemplateString = true)
    (L : List (Str × Option Entry)) :
    ∀ w : World, Publishable tpl w.fs →
      (∀ x, x ∈ L → PagesDirectory <+: x.1 ∧ x.2 ≠ none ∧
        (isMarkdownFile x.1 = true → (∃ src, ReadFile w.fs x.1 = some src) ∧
          ∀ q, outputPath host.lower x.1 = some q → host.accepts q = true)) →
      ∃ w1, walkFrom (watchDir toHTML host) L w = Res.ok () w1 ∧
        Publishable tpl w1.fs ∧
        (∀ q, isArtifact q = false → Lstat w1.fs q = Lstat w.fs q) ∧
        (∀ q, q ∈ paths w1.fs ↔ q ∈ paths w.fs ∨
          ∃ x, x ∈ L ∧ isMarkdownFile x.1 = true ∧
            outputPath host.lower x.1 = some q) := by
  induction L with
  | nil =>
    intro w hP _
    exact ⟨w, rfl, hP, fun _ _ => rfl, fun q => by simp⟩
  | cons x rest ih =>
    intro w hP hL
    obtain ⟨p, info⟩ := x
    obtain ⟨hpre, hinfo, hread⟩ := hL (p, info) (List.mem_cons_self _ _)
    simp only at hpre hinfo hread
    -- the call for `p`
    have hstep : ∃ w0, watchDir toHTML host p info w = Res.ok () w0 ∧
        ((isMarkdownFile p = false ∧ w0.fs = w.fs) ∨
         (isMarkdownFile p = true ∧ ∃ q page, outputPath host.lower p = some q ∧
            WriteFile host.accepts w.fs q page = some w0.fs)) := by
      unfold watchDir
      cases hmd : isMarkdownFile p with
      | false =>
        simp only [Bool.false_eq_true, if_false, Res_bind_ok]
        cases info with
        | none => exact absurd rfl hinfo
        | some e =>
          cases e with
          | file c => exact ⟨_, rfl, Or.inl ⟨trivial, rfl⟩⟩
          | dir => exact ⟨_, rfl, Or.inl ⟨trivial, rfl⟩⟩
      | true =>
        obtain ⟨⟨src, hsrc⟩, hacc⟩ := hread hmd
        obtain ⟨q, t0, t1, r, fs1, hq, _, hW, hu⟩ := update_ok toHTML hl hsrc hP.template hM
          (slash_mem_of_pages hpre) hP.out
          (fun q h => ⟨hacc q h, hP.artifact q (isArtifact_outputPath h)⟩)
        simp only [if_true, hu, Res_bind_ok]
        cases info with
        | none => exact absurd rfl hinfo
        | some e =>
          cases e with
          | file c => exact ⟨_, rfl, Or.inr ⟨trivial, q, _, hq, hW⟩⟩
          | dir => exact ⟨_, rfl, Or.inr ⟨trivial, q, _, hq, hW⟩⟩
    obtain ⟨w0, hw0, hcase⟩ := hstep
    -- the tree after the call
    have hafter : Publishable tpl w0.fs ∧
        (∀ q1, isArtifact q1 = false → Lstat w0.fs q1 = Lstat w.fs q1) ∧
        (∀ q1, q1 ∈ paths w0.fs ↔ q1 ∈ paths w.fs ∨
          (isMarkdownFile p = true ∧ outputPath host.lower p = some q1)) := by
      rcases hcase with ⟨hmd, hfs⟩ | ⟨hmd, q, page, hq, hW⟩
      · rw [hfs]
        exact ⟨hP, fun _ _ => rfl, fun q1 => by simp [hmd]⟩
      · obtain ⟨hP1, hframe⟩ := Publishable_write hP (isArtifact_outputPath hq) hW
        refine ⟨hP1, hframe, fun q1 => ?_⟩
        rw [(WriteFile_spec hW).2.2.1 q1, hq]
        constructor
        · rintro (h | h)
          · exact Or.inl h
          · exact Or.inr ⟨hmd, by rw [h]⟩
        · rintro (h | ⟨_, h⟩)
          · exact Or.inl h
          · exact Or.inr (Option.some.inj h).symm
    obtain ⟨hP0, hframe0, hpaths0⟩ := hafter
    obtain ⟨w1, hw1, hP1, hframe1, hpaths1⟩ := ih w0 hP0 (by
      intro y hy
      obtain ⟨h1, h2, h3⟩ := hL y (List.mem_cons_of_mem _ hy)
      refine ⟨h1, h2, fun hmd => ⟨?_, (h3 hmd).2⟩⟩
      rw [ReadFile_congr (hframe0 _ (not_isArtifact_of_pages h1))]
      exact (h3 hmd).1)
    refine ⟨w1, ?_, hP1, ?_, ?_⟩
    · rw [walkFrom, hw0, Res_bind_ok, hw1]
    · intro q hq
      rw [hframe1 q hq, hframe0 q hq]
    · intro q
      rw [hpaths1 q, hpaths0 q]
      constructor
      · rintro ((h | ⟨h1, h2⟩) | ⟨y, hy, h1, h2⟩)
        · exact Or.inl h
        · exact Or.inr ⟨(p, info), List.mem_cons_self _ _, h1, h2⟩
        · exact Or.inr ⟨y, List.mem_cons_of_mem _ hy, h1, h2⟩
      · rintro (h | ⟨y, hy, h1, h2⟩)
        · exact Or.inl (Or.inl h)
        · rcases List.mem_cons.mp hy with e | hy1
          · subst e
            exact Or.inl (Or.inr ⟨h1, h2⟩)
          · exact Or.inr ⟨y, hy1, h1, h2⟩

/-- What `clean` followed by the walk of `generate` leaves, on a tree fit for
both: the artifacts are the output paths of the source documents the tree had,
and every other path is as it was. -/
theorem cleanThenGenerate_spec (toHTML : Str → Str) {host : Host}
    (hl : NoSeparator host.lower) {tpl : Str} {w : World}
    (hN : (paths w.fs).Nodup)
    (hOut : Lstat w.fs "out".toList = some Entry.dir)
    (hPages : Lstat w.fs "pages".toList = some Entry.dir)
    (hTpl : ReadFile w.fs "template.html".toList = some tpl)
    (hM : Contains tpl TemplateString = true)
    (hE : ∀ q, q ∈ artifacts w.fs → hasEntryBelow w.fs q = false)
    (hDocs : ∀ p, p ∈ sourceDocs w.fs → (∃ src, ReadFile w.fs p = some src) ∧
      ∀ q, outputPath host.lower p = some q → host.accepts q = true) :
    ∃ w2, cleanThenGenerate toHTML host w = Res.ok () w2 ∧ (paths w2.fs).Nodup ∧
      (∀ q, q ∈ artifacts w2.fs ↔
        ∃ p, p ∈ sourceDocs w.fs ∧ outputPath host.lower p = some q) ∧
      (∀ q, isArtifact q = false → Lstat w2.fs q = Lstat w.fs q) := by
  have hkeep : ∀ q, isArtifact q = false →
      Lstat (w.fs.filter (fun e => !isArtifact e.1)) q = Lstat w.fs q := fun q hq =>
    Lstat_filter (fun q => !isArtifact q) w.fs q (by simp [hq])
  have hpaths : paths (w.fs.filter (fun e => !isArtifact e.1))
      = (paths w.fs).filter (fun q => !isArtifact q) :=
    paths_filter (fun q => !isArtifact q) w.fs
  have hgone : ∀ q, isArtifact q = true → q ∉ paths (w.fs.filter (fun e => !isArtifact e.1)) := by
    intro q hq
    rw [hpaths, List.mem_filter]
    simp [hq]
  -- the tree after `clean` is fit for publishing
  have hP : Publishable tpl (w.fs.filter (fun e => !isArtifact e.1)) := by
    refine ⟨?_, ?_, ?_, ?_⟩
    · rw [hpaths]
      exact hN.filter _
    · rw [hkeep _ (by decide)]
      exact hOut
    · rw [ReadFile_congr (hkeep _ (by decide))]
      exact hTpl
    · intro q hq
      rw [Lstat_eq_none.mpr (hgone q hq)]
      intro h
      cases h
  -- the calls of the walk
  have hroot : trimSlash PagesDirectory = "pages".toList := by decide
  have hmemL : ∀ x, x ∈ ((w.fs.filter (fun e => !isArtifact e.1)).filter
        (fun e => ("pages".toList ++ ['/']).isPrefixOf e.1)).map (fun e => (e.1, some e.2)) ↔
      ∃ e, e ∈ w.fs ∧ PagesDirectory <+: e.1 ∧ x = (e.1, some e.2) := by
    intro x
    rw [List.mem_map]
    constructor
    · rintro ⟨e, he, rfl⟩
      rw [List.mem_filter, List.mem_filter] at he
      exact ⟨e, he.1.1, List.isPrefixOf_iff_prefix.mp he.2, rfl⟩
    · rintro ⟨e, he, hpre, rfl⟩
      refine ⟨e, ?_, rfl⟩
      rw [List.mem_filter, List.mem_filter]
      refine ⟨⟨he, ?_⟩, List.isPrefixOf_iff_prefix.mpr hpre⟩
      simp [not_isArtifact_of_pages hpre]
  have hdoc : ∀ e, e ∈ w.fs → PagesDirectory <+: e.1 → isMarkdownFile e.1 = true →
      e.1 ∈ sourceDocs w.fs := by
    intro e he hpre hmd
    simp only [sourceDocs, List.mem_filter, isSourceDoc, Bool.and_eq_true]
    exact ⟨mem_paths_of_mem he, List.isPrefixOf_iff_prefix.mpr hpre, hmd⟩
  have hrootmd : isMarkdownFile PagesDirectory = false := by decide
  obtain ⟨w2, hw2, hP2, hframe, hpaths2⟩ := generate_walk toHTML hl hM
    ((PagesDirectory, some Entry.dir) ::
      ((w.fs.filter (fun e => !isArtifact e.1)).filter
        (fun e => ("pages".toList ++ ['/']).isPrefixOf e.1)).map (fun e => (e.1, some e.2)))
    { w with fs := w.fs.filter (fun e => !isArtifact e.1) } hP (by
      intro x hx
      rcases List.mem_cons.mp hx with rfl | hx1
      · exact ⟨List.prefix_refl _, by simp, fun h => by rw [hrootmd] at h; cases h⟩
      · obtain ⟨e, he, hpre, rfl⟩ := (hmemL x).mp hx1
        refine ⟨hpre, by simp, fun hmd => ?_⟩
        obtain ⟨⟨src, hsrc⟩, hacc⟩ := hDocs _ (hdoc e he hpre hmd)
        exact ⟨⟨src, by
          rw [ReadFile_congr (hkeep _ (not_isArtifact_of_pages hpre))]
          exact hsrc⟩, hacc⟩)
  refine ⟨w2, ?_, hP2.nodup, ?_, ?_⟩
  · unfold cleanThenGenerate
    rw [clean_eq hOut hN hE, Res_bind_ok]
    unfold generate Walk walkList
    simp only [hroot, hkeep _ (show isArtifact "pages".toList = false by decide), hPages]
    exact hw2
  · intro q
    simp only [artifacts, List.mem_filter]
    rw [hpaths2 q]
    constructor
    · rintro ⟨h | ⟨x, hx, hmd, hq⟩, hart⟩
      · exact absurd h (hgone q hart)
      · rcases List.mem_cons.mp hx with rfl | hx1
        · rw [hrootmd] at hmd
          cases hmd
        · obtain ⟨e, he, hpre, rfl⟩ := (hmemL x).mp hx1
          exact ⟨e.1, hdoc e he hpre hmd, hq⟩
    · rintro ⟨p, hp, hq⟩
      simp only [sourceDocs, List.mem_filter, isSourceDoc, Bool.and_eq_true] at hp
      obtain ⟨hp1, hpre, hmd⟩ := hp
      have hpre1 : PagesDirectory <+: p := List.isPrefixOf_iff_prefix.mp hpre
      obtain ⟨e, he, rfl⟩ := List.mem_map.mp hp1
      refine ⟨Or.inr ⟨(e.1, some e.2), ?_, hmd, hq⟩, isArtifact_outputPath hq⟩
      exact List.mem_cons_of_mem _ ((hmemL _).mpr ⟨e, he, hpre1, rfl⟩)
  · intro q hq
    rw [hframe q hq]
    exact hkeep q hq

/-! ## Paths directly in `pages/` with at most one `.` -/

theorem Index_single {c : Char} (u v : Str) (h : c ∉ u) :
    Index (u ++ c :: v) [c] = some u.length := by
  induction u with
  | nil => simp [Index, List.isPrefixOf]
  | cons a u ih =>
    have ha : a ≠ c := fun e => h (by simp [e])
    have hu : c ∉ u := fun e => h (by simp [e])
    have hc : ¬ c = a := fun e => ha e.symm
    simp [Index, List.isPrefixOf, hc, ih hu]

theorem Index_none_of_not_mem {c : Char} {s : Str} (h : c ∉ s) : Index s [c] = none :=
  Index_eq_none.mpr (fun hc => h (mem_iff_occurs.mp hc))

theorem Split_single_one {c : Char} {s : Str} (h : c ∉ s) : Split s [c] = [s] :=
  Split_of_Index_none (by simp) (Index_none_of_not_mem h)

theorem Split_single_two {c : Char} {u v : Str} (hu : c ∉ u) (hv : c ∉ v) :
    Split (u ++ c :: v) [c] = [u, v] := by
  have hI := Index_single u v hu
  rw [Split_of_Index_some (by simp) hI]
  have h1 : (u ++ c :: v).take u.length = u := List.take_left _ _
  have h2 : (u ++ c :: v).drop (u.length + [c].length) = v := by
    have : u ++ c :: v = (u ++ [c]) ++ v := by simp
    rw [this, ← List.length_append, List.drop_left]
  rw [h1, h2, Split_single_one hv]

theorem extScan_skip (l acc x : Str) (h : ∀ c, c ∈ l → c ≠ '/' ∧ c ≠ '.') :
    extScan (l ++ x) acc = extScan x (l.reverse ++ acc) := by
  induction l generalizing acc with
  | nil => rfl
  | cons a l ih =>
    obtain ⟨h1, h2⟩ := h a (List.mem_cons_self _ _)
    have hl : ∀ c, c ∈ l → c ≠ '/' ∧ c ≠ '.' := fun c hc => h c (List.mem_cons_of_mem _ hc)
    have hstep : extScan (a :: l ++ x) acc = extScan (l ++ x) (a :: acc) := by
      simp only [List.cons_append, extScan, h1, h2, if_false]
      rfl
    rw [hstep, ih _ hl, List.reverse_cons, List.append_assoc, List.singleton_append]

theorem Ext_dot (u b : Str) (h1 : '/' ∉ b) (h2 : '.' ∉ b) :
    Ext (u ++ '.' :: b) = '.' :: b := by
  have hrev : (u ++ '.' :: b).reverse = b.reverse ++ '.' :: u.reverse := by simp
  unfold Ext
  rw [hrev, extScan_skip _ _ _ (fun c hc => by
    have hc1 : c ∈ b := List.mem_reverse.mp hc
    exact ⟨fun e => h1 (e ▸ hc1), fun e => h2 (e ▸ hc1)⟩)]
  simp [extScan]

theorem extScan_nodot (l acc : Str) (h : '.' ∉ l) : extScan l acc = [] := by
  induction l generalizing acc with
  | nil => rfl
  | cons a l ih =>
    have ha : a ≠ '.' := fun e => h (by simp [e])
    have hl : '.' ∉ l := fun e => h (by simp [e])
    by_cases hs : a = '/'
    · simp [extScan, hs]
    · simp [extScan, hs, ha, ih _ hl]

theorem Ext_nodot {s : Str} (h : '.' ∉ s) : Ext s = [] :=
  extScan_nodot _ _ (fun hc => h (List.mem_reverse.mp hc))

theorem takeWhile_to_slash (l rest : Str) (h : '/' ∉ l) :
    (l ++ '/' :: rest).takeWhile (fun c => c ≠ '/') = l := by
  induction l with
  | nil => simp [List.takeWhile]
  | cons a l ih =>
    have ha : a ≠ '/' := fun e => h (by simp [e])
    have hl : '/' ∉ l := fun e => h (by simp [e])
    simpa [List.takeWhile, ha] using ih hl

/-- The shape of a plain page: `pages/` and a name without `/` that has no
`.` or is `a.b` with no `.` in `a` and `b`. -/
theorem plain_shape {p : Str} (h : isPlainPage p = true) :
    ∃ name, p = PagesDirectory ++ name ∧ '/' ∉ name ∧
      ('.' ∉ name ∨ ∃ a b, name = a ++ '.' :: b ∧ '.' ∉ a ∧ '.' ∉ b) := by
  simp only [isPlainPage, Bool.and_eq_true, decide_eq_true_eq] at h
  obtain ⟨⟨hpre, hsl⟩, hcount⟩ := h
  obtain ⟨name, rfl⟩ := List.isPrefixOf_iff_prefix.mp hpre
  rw [List.drop_left] at hsl hcount
  refine ⟨name, rfl, hsl, ?_⟩
  by_cases hd : '.' ∈ name
  · right
    obtain ⟨a, b, rfl⟩ := List.append_of_mem hd
    rw [List.count_append, List.count_cons_self] at hcount
    refine ⟨a, b, rfl, ?_, ?_⟩
    · exact List.count_eq_zero.mp (by omega)
    · exact List.count_eq_zero.mp (by omega)
  · exact Or.inl hd

/-- On a plain page the test of `isMarkdownFile` is the test for the extension
`.md`. -/
theorem plain_isMarkdownFile {p : Str} (h : isPlainPage p = true) :
    isMarkdownFile p = hasMdExtension p := by
  obtain ⟨name, rfl, hsl, hd | ⟨a, b, rfl, ha, hb⟩⟩ := plain_shape h
  · have hp : '.' ∉ PagesDirectory ++ name := by
      intro hc
      rcases List.mem_append.mp hc with h1 | h1
      · exact absurd h1 (by decide)
      · exact hd h1
    have hS : Split (PagesDirectory ++ name) ".".toList = [PagesDirectory ++ name] :=
      Split_single_one hp
    simp only [isMarkdownFile, hasMdExtension, hS, Ext_nodot hp]
    simp
  · have hu : '.' ∉ PagesDirectory ++ a := by
      intro hc
      rcases List.mem_append.mp hc with h1 | h1
      · exact absurd h1 (by decide)
      · exact ha h1
    have hbs : '/' ∉ b := fun hc => hsl (by simp [hc])
    have hS : Split (PagesDirectory ++ (a ++ '.' :: b)) ".".toList
        = [PagesDirectory ++ a, b] := by
      rw [← List.append_assoc]
      exact Split_single_two hu hb
    have hE : Ext (PagesDirectory ++ (a ++ '.' :: b)) = '.' :: b := by
      rw [← List.append_assoc]
      exact Ext_dot _ _ hbs hb
    simp only [isMarkdownFile, hasMdExtension, hS, hE]
    have hlen : ¬ ([PagesDirectory ++ a, b] : List Str).length < 2 := by simp
    have h3 : ([PagesDirectory ++ a, b] : List Str)[1]? = some b := by simp
    rw [if_neg hlen, h3]
    by_cases hmd : b = "md".toList
    · subst hmd
      decide
    · have h1 : ¬ ('.' :: b = ".md".toList) := fun e => hmd (List.cons.inj e).2
      have hl : (some b == some "md".toList) = false := by
        rw [beq_eq_false_iff_ne]
        exact fun e => hmd (Option.some.inj e)
      rw [hl, decide_eq_false h1]

/-- On a plain page with the extension `.md`, `normalize` returns the name the
normalizer of the specification gives. -/
theorem plain_normalize (lower : Char → Char) {p : Str} (h : isPlainPage p = true)
    (hmd : hasMdExtension p = true) :
    normalize lower p = some (specNormalize lower p) := by
  obtain ⟨name, rfl, hsl, hd | ⟨a, b, rfl, ha, hb⟩⟩ := plain_shape h
  · exfalso
    have hp : '.' ∉ PagesDirectory ++ name := by
      intro hc
      rcases List.mem_append.mp hc with h1 | h1
      · exact absurd h1 (by decide)
      · exact hd h1
    simp only [hasMdExtension, Ext_nodot hp] at hmd
    exact absurd hmd (by decide)
  · have hbs : '/' ∉ b := fun hc => hsl (by simp [hc])
    have hE : Ext (PagesDirectory ++ (a ++ '.' :: b)) = '.' :: b := by
      rw [← List.append_assoc]
      exact Ext_dot _ _ hbs hb
    have hS1 : Split (PagesDirectory ++ (a ++ '.' :: b)) "/".toList
        = ["pages".toList, a ++ '.' :: b] :=
      Split_single_two (u := "pages".toList) (by decide) hsl
    have hS2 : Split (a ++ '.' :: b) ".".toList = [a, b] := Split_single_two ha hb
    have hfin : finalComponent (PagesDirectory ++ (a ++ '.' :: b)) = a ++ '.' :: b := by
      have hrev : (PagesDirectory ++ (a ++ '.' :: b)).reverse
          = (a ++ '.' :: b).reverse ++ '/' :: "segap".toList := by
        simp [PagesDirectory]
      unfold finalComponent
      rw [hrev, takeWhile_to_slash _ _ (fun hc => hsl (List.mem_reverse.mp hc)),
        List.reverse_reverse]
    have htake : (a ++ '.' :: b).take ((a ++ '.' :: b).length - ('.' :: b).length) = a := by
      have : (a ++ '.' :: b).length - ('.' :: b).length = a.length := by
        simp
      rw [this, List.take_left]
    have h1 : (["pages".toList, a ++ '.' :: b] : List Str)[1]? = some (a ++ '.' :: b) := by
      simp
    have h0 : ([a, b] : List Str)[0]? = some a := by simp
    simp only [normalize, specNormalize, hS1, h1, hS2, h0, hfin, hE, htake]

theorem latin1Lower_noSeparator : NoSeparator latin1Lower := by
  intro c hc
  unfold latin1Lower
  split
  · rename_i h
    have hv : (Char.ofNat (c.toNat + 32)).toNat = c.toNat + 32 :=
      toNat_ofNat_valid _ (Or.inl (by omega))
    constructor
    · intro e
      have := congrArg Char.toNat e
      rw [hv] at this
      have h47 : '/'.toNat = 47 := by decide
      omega
    · intro e
      have := congrArg Char.toNat e
      rw [hv] at this
      have h46 : '.'.toNat = 46 := by decide
      omega
  · constructor
    · intro e
      rw [e] at hc
      have h47 : '/'.toNat = 47 := by decide
      omega
    · intro e
      rw [e] at hc
      have h46 : '.'.toNat = 46 := by decide
      omega

/-! ## Two error paths at concrete inputs -/

/-- Where `pages` is a regular file, `os.Lstat("pages/")` fails, the walk calls
`watchDir` with a nil `FileInfo`, and `fi.Mode()` panics. -/
theorem generate_pages_is_file :
    ∀ host : Host, generate (fun s => s) host
        ⟨[("out".toList, Entry.dir), ("pages".toList, Entry.file "x".toList)], [], []⟩
      = Res.panicked
        ⟨[("out".toList, Entry.dir), ("pages".toList, Entry.file "x".toList)], [], []⟩ :=
  fun _ => rfl

set_option maxRecDepth 100000 in
/-- A source name of 255 bytes, `x` 252 times and `.md`, is a legal name, but
the output name, two bytes longer, is not: `WriteFile` fails and `handle`
panics with the file tree unchanged. -/
theorem react_name_too_long :
    nameFits ("pages/".toList ++ (List.replicate 252 'x' ++ ".md".toList)) = true ∧
    react (fun s => s) sampleHost
        (Msg.event ("pages/".toList ++ (List.replicate 252 'x' ++ ".md".toList)))
        ⟨[("out".toList, Entry.dir), ("pages".toList, Entry.dir),
          ("pages/".toList ++ (List.replicate 252 'x' ++ ".md".toList),
            Entry.file "# Hi".toList),
          ("template.html".toList, Entry.file "<\x7b\x7b post \x7d\x7d>".toList)],
         [], []⟩
      = Res.panicked
        ⟨[("out".toList, Entry.dir), ("pages".toList, Entry.dir),
          ("pages/".toList ++ (List.replicate 252 'x' ++ ".md".toList),
            Entry.file "# Hi".toList),
          ("template.html".toList, Entry.file "<\x7b\x7b post \x7d\x7d>".toList)],
         ["Updating ".toList ++ ("pages/".toList ++ (List.replicate 252 'x' ++ ".md".toList))],
         []⟩ := by
  decide

/-! ## The claims -/

/-- C1, the code at the failing inputs: `isMarkdownFile` looks at the text
between the first and the second `.` of the whole path, not at the extension.
It rejects `pages/notes.v2.md`, whose extension is `md`, and accepts
`pages/x.md.bak`, whose extension is `bak`. -/
theorem isMarkdownFile_second_segment :
    isMarkdownFile "pages/notes.v2.md".toList = false ∧
    isMarkdownFile "pages/x.md.bak".toList = true := by
  decide

/-- C2, the code at the failing input: for the nested source path
`pages/blog/My Post.md` the path `update` writes to is `out/blog.html`, named
after the directory `blog`, not `out/my-post.html`, whatever the case table
beyond ASCII is. -/
theorem normalize_nested_path (lower : Char → Char) :
    isMarkdownFile "pages/blog/My Post.md".toList = true ∧
    normalize lower "pages/blog/My Post.md".toList = some "blog.html".toList ∧
    outputPath lower "pages/blog/My Post.md".toList = some "out/blog.html".toList :=
  ⟨by decide, rfl, rfl⟩

/-- C3, the code at the failing input: with the template
`A{{ post }}B{{ post }}C` and the content `X`, `insertIntoTemplate` returns
`AXB`; the second marker and the text `C` behind it are dropped, where the
claim keeps them in the suffix (`AXB{{ post }}C`). -/
theorem insertIntoTemplate_two_markers :
    insertIntoTemplate "template.html".toList "X".toList
        ⟨[("template.html".toList,
            Entry.file "A\x7b\x7b post \x7d\x7dB\x7b\x7b post \x7d\x7dC".toList)], [], []⟩
      = Res.ok "AXB".toList
        ⟨[("template.html".toList,
            Entry.file "A\x7b\x7b post \x7d\x7dB\x7b\x7b post \x7d\x7dC".toList)], [], []⟩ ∧
    "AXB".toList ≠ "A".toList ++ "X".toList ++ "B\x7b\x7b post \x7d\x7dC".toList := by
  decide

/-- C4: for a template `pre ++ marker ++ suf` in which `strings.Count` finds
the marker exactly once, `insertIntoTemplate` returns `pre ++ content ++ suf`,
the content standing where the marker stood; `pre ++ suf`, what is left of the
result without the content, is the template with the marker deleted. -/
theorem insertIntoTemplate_single_marker (filename content pre suf : Str) (w : World)
    (hread : ReadFile w.fs filename = some (pre ++ TemplateString ++ suf))
    (hcount : Count (pre ++ TemplateString ++ suf) TemplateString = 1) :
    insertIntoTemplate filename content w = Res.ok (pre ++ content ++ suf) w ∧
    Replace (pre ++ TemplateString ++ suf) TemplateString [] (-1) = pre ++ suf := by
  have hT : TemplateString ≠ [] := by decide
  have hocc : TemplateString <+: (pre ++ TemplateString ++ suf).drop pre.length := by
    rw [List.append_assoc, List.drop_left]
    exact List.prefix_append _ _
  obtain ⟨m, _, hI⟩ := Index_of_occurrence hocc
  have hrest : Index ((pre ++ TemplateString ++ suf).drop (m + TemplateString.length))
      TemplateString = none := by
    apply Count_eq_zero hT
    have := Count_of_Index_some hT hI
    omega
  have hm : pre.length = m := Index_unique TemplateString_unbordered hI hrest hocc
  subst hm
  have htake : (pre ++ TemplateString ++ suf).take pre.length = pre := by
    rw [List.append_assoc, List.take_left]
  have hdrop : (pre ++ TemplateString ++ suf).drop (pre.length + TemplateString.length)
      = suf := by
    rw [← List.length_append, List.drop_left]
  rw [hdrop] at hrest
  have hsplit : SplitN (pre ++ TemplateString ++ suf) TemplateString (-1) = [pre, suf] := by
    show Split _ _ = _
    rw [Split_of_Index_some hT hI, htake, hdrop, Split_of_Index_none hT hrest]
  constructor
  · simp only [insertIntoTemplate, hread, Contains, hI, hsplit]
    simp
  · rw [Replace_of_Index_some hT hI, htake, hdrop, Replace_of_Index_none hT hrest]
    simp

/-- Witness of C4: the template `<html>{{ post }}</html>` with the content
`<h1 id="hi">Hi</h1>` and a newline gives `<html><h1 id="hi">Hi</h1>`, the
newline, `</html>`. -/
theorem insertIntoTemplate_single_marker_witness :
    insertIntoTemplate "template.html".toList "<h1 id=\x22hi\x22>Hi</h1>\n".toList
        ⟨[("template.html".toList,
            Entry.file ("<html>".toList ++ TemplateString ++ "</html>".toList))], [], []⟩
      = Res.ok ("<html>".toList ++ "<h1 id=\x22hi\x22>Hi</h1>\n".toList ++ "</html>".toList)
        ⟨[("template.html".toList,
            Entry.file ("<html>".toList ++ TemplateString ++ "</html>".toList))], [], []⟩ ∧
    Replace ("<html>".toList ++ TemplateString ++ "</html>".toList) TemplateString [] (-1)
      = "<html>".toList ++ "</html>".toList :=
  insertIntoTemplate_single_marker "template.html".toList
    "<h1 id=\x22hi\x22>Hi</h1>\n".toList "<html>".toList "</html>".toList
    ⟨[("template.html".toList,
        Entry.file ("<html>".toList ++ TemplateString ++ "</html>".toList))], [], []⟩
    (by decide) (by decide)

/-- C5: when the template has no marker, `update` of a readable source
document ends in `os.Exit(1)`, a non-zero status; the last line printed is the
message that names the marker `{{ post }}`; and the file tree is the one the
call started with, so no output file is created or overwritten. -/
theorem update_marker_missing (toHTML : Str → Str) (host : Host) (filename src tpl : Str)
    (w : World)
    (hsrc : ReadFile w.fs filename = some src)
    (htpl : ReadFile w.fs "template.html".toList = some tpl)
    (hno : Contains tpl TemplateString = false) :
    ∃ w1, update toHTML host filename w = Res.exit 1 w1 ∧ 1 ≠ 0 ∧ w1.fs = w.fs ∧
      w1.stdout = w.stdout ++ ["Updating ".toList ++ filename, markerMissing] ∧
      Contains markerMissing TemplateString = true := by
  refine ⟨println markerMissing (println ("Updating ".toList ++ filename) w), ?_, by decide,
    rfl, by simp [println], by decide⟩
  unfold update
  rw [markdownToHtml_ok toHTML src (by rw [println_fs]; exact hsrc)]
  simp only [Res.bind]
  rw [insertIntoTemplate_missing tpl _ (by rw [println_fs]; exact htpl) hno]

/-- Witness of C5: a page `pages/x.md` and a template without the marker. -/
theorem update_marker_missing_witness :
    ∃ w1, update (fun s => s) sampleHost "pages/x.md".toList
        ⟨[("out".toList, Entry.dir), ("pages/x.md".toList, Entry.file "# Hi".toList),
          ("template.html".toList, Entry.file "<html></html>".toList)], [], []⟩
        = Res.exit 1 w1 ∧ 1 ≠ 0 ∧
      w1.fs = [("out".toList, Entry.dir), ("pages/x.md".toList, Entry.file "# Hi".toList),
          ("template.html".toList, Entry.file "<html></html>".toList)] ∧
      w1.stdout = [] ++ ["Updating ".toList ++ "pages/x.md".toList, markerMissing] ∧
      Contains markerMissing TemplateString = true :=
  update_marker_missing (fun s => s) sampleHost "pages/x.md".toList "# Hi".toList
    "<html></html>".toList
    ⟨[("out".toList, Entry.dir), ("pages/x.md".toList, Entry.file "# Hi".toList),
      ("template.html".toList, Entry.file "<html></html>".toList)], [], []⟩
    (by decide) (by decide) (by decide)

/-- C6: for every text `h` the rendering engine returns for a readable
source, `markdownToHtml` returns a text without any occurrence of
`</code>`, newline, `<code>`: it is `h` with every piece between two such
occurrences kept and each occurrence turned into `</code>`, newline, `<br>`,
newline, `<code>`; an `h` without an occurrence is returned unchanged. -/
theorem markdownToHtml_code_break (toHTML : Str → Str) (filename src : Str) (w : World)
    (hsrc : ReadFile w.fs filename = some src) :
    ∃ out, markdownToHtml toHTML filename w = Res.ok out w ∧
      Contains out codeBreakOld = false ∧
      toHTML src = codeBreakOld.intercalate (Split (toHTML src) codeBreakOld) ∧
      out = codeBreakNew.intercalate (Split (toHTML src) codeBreakOld) ∧
      (Contains (toHTML src) codeBreakOld = false → out = toHTML src) := by
  have hold : codeBreakOld ≠ [] := by decide
  refine ⟨Replace (toHTML src) codeBreakOld codeBreakNew (-1), ?_, ?_, ?_, ?_, ?_⟩
  · simp [markdownToHtml, hsrc]
  · have := Replace_occurrence_free hold (by decide) codeBreak_F1 codeBreak_F2
      codeBreak_F3 (toHTML src)
    simp [Contains, this]
  · exact (intercalate_Split hold _).symm
  · exact Replace_eq_intercalate hold _
  · intro h
    apply Replace_of_Index_none hold
    simpa [Contains] using h

/-- Witness of C6: two code spans on adjacent lines, and a lone code span. -/
theorem markdownToHtml_code_break_witness :
    ∃ out, markdownToHtml (fun s => s) "pages/x.md".toList
        ⟨[("pages/x.md".toList, Entry.file "<code>a</code>\n<code>b</code>".toList)], [], []⟩
        = Res.ok out
          ⟨[("pages/x.md".toList, Entry.file "<code>a</code>\n<code>b</code>".toList)], [], []⟩ ∧
      Contains out codeBreakOld = false ∧
      "<code>a</code>\n<code>b</code>".toList
        = codeBreakOld.intercalate (Split "<code>a</code>\n<code>b</code>".toList codeBreakOld) ∧
      out = codeBreakNew.intercalate
        (Split "<code>a</code>\n<code>b</code>".toList codeBreakOld) ∧
      (Contains "<code>a</code>\n<code>b</code>".toList codeBreakOld = false →
        out = "<code>a</code>\n<code>b</code>".toList) :=
  markdownToHtml_code_break (fun s => s) "pages/x.md".toList
    "<code>a</code>\n<code>b</code>".toList
    ⟨[("pages/x.md".toList, Entry.file "<code>a</code>\n<code>b</code>".toList)], [], []⟩
    (by decide)

/-- C10: for every path with a `/`, `normalize` returns, and its result is
`base ++ ".html"` with no `/`, no space and no `.` in `base`; the path
`update` writes to, `OutputDirectory` followed by that result, therefore lies
in the directory `out` itself.  This holds over every case table that maps no
character beyond ASCII onto `/` or `.`, as Go's does not. -/
theorem normalize_direct_child (lower : Char → Char) (hl : NoSeparator lower)
    (filename : Str) (h : '/' ∈ filename) :
    ∃ base, normalize lower filename = some (base ++ ".html".toList) ∧
      '/' ∉ base ∧ ' ' ∉ base ∧ '.' ∉ base ∧
      parentDir (OutputDirectory ++ (base ++ ".html".toList)) = some "out".toList := by
  obtain ⟨base, h1, h2, h3, h4⟩ := normalize_spec hl filename h
  exact ⟨base, h1, h2, h3, h4, parentDir_out base h2⟩

/-- Witness of C10: the path `pages/ÉCOLE Été.md`, over the Latin-1 table; its
normalized name is `école-été.html`. -/
theorem normalize_direct_child_witness :
    (∃ base, normalize latin1Lower "pages/ÉCOLE Été.md".toList
        = some (base ++ ".html".toList) ∧
      '/' ∉ base ∧ ' ' ∉ base ∧ '.' ∉ base ∧
      parentDir (OutputDirectory ++ (base ++ ".html".toList)) = some "out".toList) ∧
    normalize latin1Lower "pages/ÉCOLE Été.md".toList = some "école-été.html".toList :=
  ⟨normalize_direct_child latin1Lower latin1Lower_noSeparator "pages/ÉCOLE Été.md".toList
    (by decide), by decide⟩

/-- C7 as stated fails: in the tree `out`, `out/d.html` (a directory) and
`out/d.html/x.png`, the entry `out/d.html` has the extension `.html`, but
`os.Remove` refuses a directory that is not empty and `handle` panics; the
entry is still there. -/
theorem clean_nonempty_html_dir :
    isArtifact "out/d.html".toList = true ∧
    clean ⟨[("out".toList, Entry.dir), ("out/d.html".toList, Entry.dir),
        ("out/d.html/x.png".toList, Entry.file "C".toList)], [], []⟩
      = Res.panicked ⟨[("out".toList, Entry.dir), ("out/d.html".toList, Entry.dir),
        ("out/d.html/x.png".toList, Entry.file "C".toList)], [], []⟩ := by
  decide

/-- C7, amended: on a tree with the directory `out`, each path listed once,
in which no entry below `out/` with extension `.html` has entries below it,
`clean` returns, has deleted every entry below `out/` whose extension is
`.html`, and has left every other entry present and unchanged. -/
theorem clean_deletes_html (w : World)
    (hOut : Lstat w.fs "out".toList = some Entry.dir)
    (hN : (paths w.fs).Nodup)
    (hE : ∀ q, q ∈ artifacts w.fs → hasEntryBelow w.fs q = false) :
    ∃ w1, clean w = Res.ok () w1 ∧
      w1.fs = w.fs.filter (fun e => !isArtifact e.1) ∧
      (∀ q, isArtifact q = true → Lstat w1.fs q = none) ∧
      (∀ q, isArtifact q = false → Lstat w1.fs q = Lstat w.fs q) := by
  refine ⟨_, clean_eq hOut hN hE, rfl, ?_, ?_⟩
  · intro q hq
    rw [Lstat_eq_none]
    have := paths_filter (fun q => !isArtifact q) w.fs
    simp only at this ⊢
    rw [this, List.mem_filter]
    simp [hq]
  · intro q hq
    exact Lstat_filter (fun q => !isArtifact q) w.fs q (by simp [hq])

/-- Witness of C7: of `out/a.html`, `out/b.html` and `out/c.png` the first two
are deleted and `out/c.png` remains. -/
theorem clean_deletes_html_witness :
    (∃ w1, clean ⟨[("out".toList, Entry.dir), ("out/a.html".toList, Entry.file "A".toList),
          ("out/b.html".toList, Entry.file "B".toList),
          ("out/c.png".toList, Entry.file "C".toList)], [], []⟩ = Res.ok () w1 ∧
      w1.fs = [("out".toList, Entry.dir), ("out/a.html".toList, Entry.file "A".toList),
          ("out/b.html".toList, Entry.file "B".toList),
          ("out/c.png".toList, Entry.file "C".toList)].filter (fun e => !isArtifact e.1) ∧
      (∀ q, isArtifact q = true → Lstat w1.fs q = none) ∧
      (∀ q, isArtifact q = false → Lstat w1.fs q
        = Lstat [("out".toList, Entry.dir), ("out/a.html".toList, Entry.file "A".toList),
          ("out/b.html".toList, Entry.file "B".toList),
          ("out/c.png".toList, Entry.file "C".toList)] q)) ∧
    [("out".toList, Entry.dir), ("out/a.html".toList, Entry.file "A".toList),
      ("out/b.html".toList, Entry.file "B".toList),
      ("out/c.png".toList, Entry.file "C".toList)].filter (fun e => !isArtifact e.1)
      = [("out".toList, Entry.dir), ("out/c.png".toList, Entry.file "C".toList)] :=
  ⟨clean_deletes_html
    ⟨[("out".toList, Entry.dir), ("out/a.html".toList, Entry.file "A".toList),
      ("out/b.html".toList, Entry.file "B".toList),
      ("out/c.png".toList, Entry.file "C".toList)], [], []⟩
    (by decide) (by decide) (by decide), by decide⟩

/-- C8 as stated fails: the documents `pages/A.md` and `pages/a.md` both
normalize to `a.html`, so after `clean` and the walk there is one artifact,
`out/a.html`, for two source documents, whatever the case table beyond ASCII
is. -/
theorem cleanThenGenerate_name_collision :
    (∀ lower : Char → Char, cleanThenGenerate (fun s => s) ⟨lower, nameFits⟩
        ⟨[("out".toList, Entry.dir), ("pages".toList, Entry.dir),
          ("pages/A.md".toList, Entry.file "A".toList),
          ("pages/a.md".toList, Entry.file "a".toList),
          ("template.html".toList, Entry.file "<\x7b\x7b post \x7d\x7d>".toList)], [], []⟩
      = Res.ok ()
        ⟨[("out".toList, Entry.dir), ("pages".toList, Entry.dir),
          ("pages/A.md".toList, Entry.file "A".toList),
          ("pages/a.md".toList, Entry.file "a".toList),
          ("template.html".toList, Entry.file "<\x7b\x7b post \x7d\x7d>".toList),
          ("out/a.html".toList, Entry.file "<a>".toList)],
         ["Updating pages/A.md".toList, "Updating pages/a.md".toList],
         ["pages/".toList]⟩) ∧
    artifacts [("out".toList, Entry.dir), ("pages".toList, Entry.dir),
          ("pages/A.md".toList, Entry.file "A".toList),
          ("pages/a.md".toList, Entry.file "a".toList),
          ("template.html".toList, Entry.file "<\x7b\x7b post \x7d\x7d>".toList),
          ("out/a.html".toList, Entry.file "<a>".toList)] = ["out/a.html".toList] ∧
    specSourceDocs [("out".toList, Entry.dir), ("pages".toList, Entry.dir),
          ("pages/A.md".toList, Entry.file "A".toList),
          ("pages/a.md".toList, Entry.file "a".toList),
          ("template.html".toList, Entry.file "<\x7b\x7b post \x7d\x7d>".toList)]
      = ["pages/A.md".toList, "pages/a.md".toList] :=
  ⟨fun _ => rfl, by decide, by decide⟩

/-- C8, amended: take a tree in which every path below `pages/` lies directly
in `pages/` and has at most one `.` in its name, with the directories `out`
and `pages`, each path listed once, a template with the marker, no artifact
with entries below it, and source documents (the paths below `pages/` with the
extension `.md`) that are readable and whose output paths the file system
takes.  Then `clean` followed by the walk of `generate` returns; every source
document is published under `OutputDirectory + normalize(p)`, the name the
normalizer of the specification gives; the `.html` artifacts of the tree it
leaves are exactly these paths, so none is left over from before the clean;
their number is at most the number of source documents, and equal to it when
no two documents have the same output path. -/
theorem cleanThenGenerate_artifacts (toHTML : Str → Str) (host : Host) (tpl : Str)
    (w : World) (hl : NoSeparator host.lower)
    (hN : (paths w.fs).Nodup)
    (hOut : Lstat w.fs "out".toList = some Entry.dir)
    (hPages : Lstat w.fs "pages".toList = some Entry.dir)
    (hTpl : ReadFile w.fs "template.html".toList = some tpl)
    (hM : Contains tpl TemplateString = true)
    (hE : ∀ q, q ∈ artifacts w.fs → hasEntryBelow w.fs q = false)
    (hPlain : ∀ p, p ∈ paths w.fs → PagesDirectory.isPrefixOf p = true →
      isPlainPage p = true)
    (hDocs : ∀ p, p ∈ specSourceDocs w.fs → (ReadFile w.fs p).isSome = true ∧
      host.accepts (specOutputPath host.lower p) = true) :
    ∃ w2, cleanThenGenerate toHTML host w = Res.ok () w2 ∧
      (∀ p, p ∈ specSourceDocs w.fs → isMarkdownFile p = true ∧
        outputPath host.lower p = some (specOutputPath host.lower p)) ∧
      (∀ q, q ∈ artifacts w2.fs ↔
        ∃ p, p ∈ specSourceDocs w.fs ∧ q = specOutputPath host.lower p) ∧
      (artifacts w2.fs).length ≤ (specSourceDocs w.fs).length ∧
      ((∀ p1 p2, p1 ∈ specSourceDocs w.fs → p2 ∈ specSourceDocs w.fs →
          specOutputPath host.lower p1 = specOutputPath host.lower p2 → p1 = p2) →
        (artifacts w2.fs).length = (specSourceDocs w.fs).length) := by
  -- on this tree the code's classifier and normalizer are those of the specification
  have hdocs : sourceDocs w.fs = specSourceDocs w.fs := by
    unfold sourceDocs specSourceDocs
    apply List.filter_congr
    intro p hp
    unfold isSourceDoc
    cases hpre : PagesDirectory.isPrefixOf p with
    | false => rfl
    | true => rw [plain_isMarkdownFile (hPlain p hp hpre)]
  have hspec : ∀ p, p ∈ specSourceDocs w.fs → isMarkdownFile p = true ∧
      outputPath host.lower p = some (specOutputPath host.lower p) := by
    intro p hp
    have hp1 := hp
    simp only [specSourceDocs, List.mem_filter, Bool.and_eq_true] at hp1
    obtain ⟨hmem, hpre, hmd⟩ := hp1
    have hplain := hPlain p hmem hpre
    refine ⟨by rw [plain_isMarkdownFile hplain]; exact hmd, ?_⟩
    simp only [outputPath, plain_normalize host.lower hplain hmd, Option.map_some',
      specOutputPath]
  obtain ⟨w2, hw2, hN2, hart, _⟩ := cleanThenGenerate_spec toHTML hl hN hOut hPages hTpl hM hE
    (fun p hp => by
      rw [hdocs] at hp
      refine ⟨Option.isSome_iff_exists.mp (hDocs p hp).1, fun q hq => ?_⟩
      rw [(hspec p hp).2] at hq
      rw [← Option.some.inj hq]
      exact (hDocs p hp).2)
  rw [hdocs] at hart
  have hart2 : ∀ q, q ∈ artifacts w2.fs ↔
      ∃ p, p ∈ specSourceDocs w.fs ∧ q = specOutputPath host.lower p := by
    intro q
    rw [hart q]
    constructor
    · rintro ⟨p, hp, hq⟩
      rw [(hspec p hp).2] at hq
      exact ⟨p, hp, (Option.some.inj hq).symm⟩
    · rintro ⟨p, hp, rfl⟩
      exact ⟨p, hp, (hspec p hp).2⟩
  have hsub : artifacts w2.fs ⊆ (specSourceDocs w.fs).map (specOutputPath host.lower) := by
    intro q hq
    obtain ⟨p, hp, rfl⟩ := (hart2 q).mp hq
    exact List.mem_map_of_mem _ hp
  have hnd : (artifacts w2.fs).Nodup := hN2.filter _
  refine ⟨w2, hw2, hspec, hart2, ?_, ?_⟩
  · have := (List.subperm_of_subset hnd hsub).length_le
    rwa [List.length_map] at this
  · intro hinj
    have hnd2 : ((specSourceDocs w.fs).map (specOutputPath host.lower)).Nodup :=
      List.Nodup.map_on (fun x hx y hy hxy => hinj x y hx hy hxy) (hN.filter _)
    have hperm : List.Perm (artifacts w2.fs)
        ((specSourceDocs w.fs).map (specOutputPath host.lower)) := by
      rw [List.perm_ext_iff_of_nodup hnd hnd2]
      intro q
      constructor
      · exact fun h => hsub h
      · intro h
        obtain ⟨p, hp, rfl⟩ := List.mem_map.mp h
        exact (hart2 _).mpr ⟨p, hp, rfl⟩
    rw [hperm.length_eq, List.length_map]

/-- Witness of C8: a stale `out/old.html` and one document `pages/x.md`. -/
theorem cleanThenGenerate_artifacts_witness :
    ∃ w2, cleanThenGenerate (fun s => s) sampleHost ⟨[("out".toList, Entry.dir), ("out/old.html".toList, Entry.file "old".toList),
          ("pages".toList, Entry.dir), ("pages/x.md".toList, Entry.file "# Hi".toList),
          ("template.html".toList, Entry.file "<\x7b\x7b post \x7d\x7d>".toList)], [], []⟩ = Res.ok () w2 ∧
      (∀ p, p ∈ specSourceDocs [("out".toList, Entry.dir), ("out/old.html".toList, Entry.file "old".toList),
          ("pages".toList, Entry.dir), ("pages/x.md".toList, Entry.file "# Hi".toList),
          ("template.html".toList, Entry.file "<\x7b\x7b post \x7d\x7d>".toList)] → isMarkdownFile p = true ∧
        outputPath sampleHost.lower p = some (specOutputPath sampleHost.lower p)) ∧
      (∀ q, q ∈ artifacts w2.fs ↔
        ∃ p, p ∈ specSourceDocs [("out".toList, Entry.dir), ("out/old.html".toList, Entry.file "old".toList),
          ("pages".toList, Entry.dir), ("pages/x.md".toList, Entry.file "# Hi".toList),
          ("template.html".toList, Entry.file "<\x7b\x7b post \x7d\x7d>".toList)] ∧ q = specOutputPath sampleHost.lower p) ∧
      (artifacts w2.fs).length ≤ (specSourceDocs [("out".toList, Entry.dir), ("out/old.html".toList, Entry.file "old".toList),
          ("pages".toList, Entry.dir), ("pages/x.md".toList, Entry.file "# Hi".toList),
          ("template.html".toList, Entry.file "<\x7b\x7b post \x7d\x7d>".toList)]).length ∧
      ((∀ p1 p2, p1 ∈ specSourceDocs [("out".toList, Entry.dir), ("out/old.html".toList, Entry.file "old".toList),
          ("pages".toList, Entry.dir), ("pages/x.md".toList, Entry.file "# Hi".toList),
          ("template.html".toList, Entry.file "<\x7b\x7b post \x7d\x7d>".toList)] → p2 ∈ specSourceDocs [("out".toList, Entry.dir), ("out/old.html".toList, Entry.file "old".toList),
          ("pages".toList, Entry.dir), ("pages/x.md".toList, Entry.file "# Hi".toList),
          ("template.html".toList, Entry.file "<\x7b\x7b post \x7d\x7d>".toList)] →
          specOutputPath sampleHost.lower p1 = specOutputPath sampleHost.lower p2 →
          p1 = p2) →
        (artifacts w2.fs).length = (specSourceDocs [("out".toList, Entry.dir), ("out/old.html".toList, Entry.file "old".toList),
          ("pages".toList, Entry.dir), ("pages/x.md".toList, Entry.file "# Hi".toList),
          ("template.html".toList, Entry.file "<\x7b\x7b post \x7d\x7d>".toList)]).length) :=
  cleanThenGenerate_artifacts (fun s => s) sampleHost "<\x7b\x7b post \x7d\x7d>".toList
    ⟨[("out".toList, Entry.dir), ("out/old.html".toList, Entry.file "old".toList),
          ("pages".toList, Entry.dir), ("pages/x.md".toList, Entry.file "# Hi".toList),
          ("template.html".toList, Entry.file "<\x7b\x7b post \x7d\x7d>".toList)], [], []⟩
    latin1Lower_noSeparator (by decide) (by decide) (by decide) (by decide) (by decide)
    (by decide) (by decide) (by decide)

/-- C9 as stated fails: an event for `pages/x.md` after the file was removed
passes `isMarkdownFile`, `update` cannot read the source, `handle` panics;
nothing is published and the process does not return to watching, on every
host. -/
theorem react_removed_source :
    isMarkdownFile "pages/x.md".toList = true ∧
    ∀ host : Host, react (fun s => s) host (Msg.event "pages/x.md".toList)
        ⟨[("out".toList, Entry.dir), ("pages".toList, Entry.dir),
          ("template.html".toList, Entry.file "<\x7b\x7b post \x7d\x7d>".toList)],
         [], ["pages/".toList]⟩
      = Res.panicked
        ⟨[("out".toList, Entry.dir), ("pages".toList, Entry.dir),
          ("template.html".toList, Entry.file "<\x7b\x7b post \x7d\x7d>".toList)],
         ["Updating pages/x.md".toList], ["pages/".toList]⟩ :=
  ⟨by decide, fun _ => rfl⟩

/-- C9, amended: one round of the watch loop.  An event whose path
`isMarkdownFile` rejects changes nothing.  An error of the watcher is printed
and the file tree stays as it is.  An event whose path `p` is accepted is one
call `update(p)`: when it returns, the tree differs from the old one only at
`OutputDirectory + normalize(p)`, which is then a file; when it ends in
`os.Exit` or a panic, the tree is the old one; and it does return, with the
composed page written and one line printed, when the source and the template
are readable, the template has the marker, `p` has a `/`, `out` is a
directory, and the file system takes the output path as a name and has no
directory there (over a case table that maps no character beyond ASCII onto
`/` or `.`). -/
theorem react_step (toHTML : Str → Str) (host : Host) (p err : Str) (w : World) :
    (isMarkdownFile p = false → react toHTML host (Msg.event p) w = Res.ok () w) ∧
    (react toHTML host (Msg.error err) w
        = Res.ok () (println ("ERROR ".toList ++ err) w) ∧
      (println ("ERROR ".toList ++ err) w).fs = w.fs) ∧
    (isMarkdownFile p = true →
      react toHTML host (Msg.event p) w = update toHTML host p w ∧
      (∀ w1, react toHTML host (Msg.event p) w = Res.ok () w1 →
        ∃ q page, outputPath host.lower p = some q ∧ ReadFile w1.fs q = some page ∧
          SameExceptAt q w.fs w1.fs) ∧
      (∀ code w1, react toHTML host (Msg.event p) w = Res.exit code w1 → w1.fs = w.fs) ∧
      (∀ w1, react toHTML host (Msg.event p) w = Res.panicked w1 → w1.fs = w.fs) ∧
      (∀ src tpl, NoSeparator host.lower →
        ReadFile w.fs p = some src →
        ReadFile w.fs "template.html".toList = some tpl →
        Contains tpl TemplateString = true → '/' ∈ p →
        Lstat w.fs "out".toList = some Entry.dir →
        (∀ q, outputPath host.lower p = some q →
          host.accepts q = true ∧ Lstat w.fs q ≠ some Entry.dir) →
        ∃ w1 q t0 t1 rest, react toHTML host (Msg.event p) w = Res.ok () w1 ∧
          outputPath host.lower p = some q ∧
          SplitN tpl TemplateString (-1) = t0 :: t1 :: rest ∧
          ReadFile w1.fs q
            = some (t0 ++ Replace (toHTML src) codeBreakOld codeBreakNew (-1) ++ t1) ∧
          SameExceptAt q w.fs w1.fs ∧
          w1.stdout = w.stdout ++ ["Updating ".toList ++ p])) := by
  refine ⟨fun h => by simp only [react, h, Bool.false_eq_true, if_false], ⟨rfl, rfl⟩, ?_⟩
  intro hmd
  have hreact : react toHTML host (Msg.event p) w = update toHTML host p w := by
    simp only [react, hmd, if_true]
  rw [hreact]
  refine ⟨rfl, ?_, ?_, ?_, ?_⟩
  · intro w1 h1
    rcases update_cases toHTML host p w with h | h | ⟨q, page, fs1, hq, hW, h⟩
    · rw [h] at h1; cases h1
    · rw [h] at h1; cases h1
    · rw [h] at h1
      cases h1
      obtain ⟨hr, hsame, _, _⟩ := WriteFile_spec hW
      exact ⟨q, page, hq, by simp only [ReadFile, hr], hsame⟩
  · intro code w1 h1
    rcases update_cases toHTML host p w with h | h | ⟨q, page, fs1, hq, hW, h⟩
    · rw [h] at h1; cases h1
    · rw [h] at h1; cases h1; rfl
    · rw [h] at h1; cases h1
  · intro w1 h1
    rcases update_cases toHTML host p w with h | h | ⟨q, page, fs1, hq, hW, h⟩
    · rw [h] at h1; cases h1; rfl
    · rw [h] at h1; cases h1
    · rw [h] at h1; cases h1
  · intro src tpl hl hsrc htpl hM hsl hOut hq
    obtain ⟨q, t0, t1, rest, fs1, hout, hS, hW, hu⟩ :=
      update_ok toHTML hl hsrc htpl hM hsl hOut hq
    obtain ⟨hr, hsame, _, _⟩ := WriteFile_spec hW
    exact ⟨_, q, t0, t1, rest, hu, hout, hS, by simp only [ReadFile, hr], hsame, rfl⟩

/-- Witness of C9: watching an empty source tree, the event for the new
document `pages/x.md` is one rebuild, of `out/x.html`; no other path changes. -/
theorem react_step_witness :
    ∃ w1 q t0 t1 rest,
      react (fun _ => "<h1 id=\x22hi\x22>Hi</h1>\n".toList) sampleHost
        (Msg.event "pages/x.md".toList)
        ⟨[("out".toList, Entry.dir), ("pages".toList, Entry.dir),
          ("pages/x.md".toList, Entry.file "# Hi".toList),
          ("template.html".toList,
            Entry.file "<html>\x7b\x7b post \x7d\x7d</html>".toList)],
         [], ["pages/".toList]⟩ = Res.ok () w1 ∧
      outputPath sampleHost.lower "pages/x.md".toList = some q ∧
      SplitN "<html>\x7b\x7b post \x7d\x7d</html>".toList TemplateString (-1)
        = t0 :: t1 :: rest ∧
      ReadFile w1.fs q
        = some (t0 ++ Replace "<h1 id=\x22hi\x22>Hi</h1>\n".toList codeBreakOld
            codeBreakNew (-1) ++ t1) ∧
      SameExceptAt q [("out".toList, Entry.dir), ("pages".toList, Entry.dir),
          ("pages/x.md".toList, Entry.file "# Hi".toList),
          ("template.html".toList,
            Entry.file "<html>\x7b\x7b post \x7d\x7d</html>".toList)] w1.fs ∧
      w1.stdout = [] ++ ["Updating ".toList ++ "pages/x.md".toList] :=
  (react_step (fun _ => "<h1 id=\x22hi\x22>Hi</h1>\n".toList) sampleHost
    "pages/x.md".toList []
    ⟨[("out".toList, Entry.dir), ("pages".toList, Entry.dir),
      ("pages/x.md".toList, Entry.file "# Hi".toList),
      ("template.html".toList,
        Entry.file "<html>\x7b\x7b post \x7d\x7d</html>".toList)],
     [], ["pages/".toList]⟩).2.2 (by decide) |>.2.2.2.2 "# Hi".toList
    "<html>\x7b\x7b post \x7d\x7d</html>".toList latin1Lower_noSeparator
    (by decide) (by decide) (by decide) (by decide) (by decide)
    (fun q h => by
      have h1 : outputPath sampleHost.lower "pages/x.md".toList
          = some "out/x.html".toList := by decide
      rw [h1] at h
      cases h
      decide)

end RapidTemplate
